import Mathlib

/-!
# Verification of the parrhesia-frontend TreeKEM core

This file gives a shallow embedding of the TreeKEM tree arithmetic and the
tree state operations of `src/treekem.ts`, of the TOFU store of `src/tofu.ts`
(first revision, the one the cited lines point at), and — where the repository
ships only the callers of the group key manager — spec-modelled definitions of
the manager-level operations.  Machine numbers are modelled as `Nat` (all the
quantities involved are nonnegative and no arithmetic here can overflow a
JS double in the ranges the functions are used at).  JavaScript `while` loops
are embedded as fuel-indexed recursions; the fuel supplied at each call site
is proved sufficient for every input on which the source terminates, and the
`none` result marks inputs on which the source diverges or throws.
-/

namespace Parrhesia

/-! ## Node index arithmetic (src/treekem.ts lines 45-137) -/

/-- Fuel-indexed body of `nodeLevel`: count trailing 1-bits.
Source: `while ((x & 1) === 1) { x >>= 1; level++ }`. -/
def nodeLevelAux : Nat → Nat → Nat
  | _, 0 => 0
  | x, fuel+1 => if x % 2 = 1 then nodeLevelAux (x / 2) fuel + 1 else 0

/-- `nodeLevel(index)`: the number of trailing 1-bits of the index.
`x` halvings are always enough fuel. -/
def nodeLevel (x : Nat) : Nat := nodeLevelAux x x

/-- `isLeaf(index)`: even indices are leaves. -/
def isLeaf (index : Nat) : Bool := index % 2 == 0

/-- `leftChild(index)`: throws on leaves (`none`), else `index - 2^(level-1)`. -/
def leftChild (index : Nat) : Option Nat :=
  if nodeLevel index = 0 then none else some (index - 2 ^ (nodeLevel index - 1))

/-- `rightChild(index)`: throws on leaves (`none`), else `index + 2^(level-1)`. -/
def rightChild (index : Nat) : Option Nat :=
  if nodeLevel index = 0 then none else some (index + 2 ^ (nodeLevel index - 1))

/-- The arithmetic part of `parent` (everything except the root check):
`isLeft = ((index >> (level+1)) & 1) === 0`, then `index ± (1 << level)`. -/
def parentArith (index : Nat) : Nat :=
  if index / 2 ^ (nodeLevel index + 1) % 2 = 0 then
    index + 2 ^ nodeLevel index
  else
    index - 2 ^ nodeLevel index

/-- `treeWidth(numLeaves)`. -/
def treeWidth (numLeaves : Nat) : Nat :=
  if numLeaves = 0 then 0 else 2 * (numLeaves - 1) + 1

/-- Fuel-indexed body of `log2`: `while (val > 1) { val >>= 1; result++ }`. -/
def log2Aux : Nat → Nat → Nat
  | _, 0 => 0
  | x, fuel+1 => if x ≤ 1 then 0 else log2Aux (x / 2) fuel + 1

/-- `log2(x)` of the source (floor log, with `log2(0) = 0`). -/
def log2Src (x : Nat) : Nat := log2Aux x x

/-- Fuel-indexed body of the loop in `root`:
`while (idx >= width) idx = leftChild(idx)` (the `leftChild` throw is `none`). -/
def rootAux (width : Nat) : Nat → Nat → Option Nat
  | _, 0 => none
  | idx, fuel+1 =>
    if idx < width then some idx
    else
      match leftChild idx with
      | none => none
      | some l => rootAux width l fuel

/-- `root(numLeaves)`: start at `(1 << log2(width)) - 1` and descend while out
of range.  `none` models the `leftChild` throw reachable at `numLeaves = 0`. -/
def root (numLeaves : Nat) : Option Nat :=
  rootAux (treeWidth numLeaves) (2 ^ log2Src (treeWidth numLeaves) - 1)
    (treeWidth numLeaves + 1)

/-- `parent(index, numLeaves)`: throws (`none`) at the root, else arithmetic. -/
def parent (index numLeaves : Nat) : Option Nat :=
  match root numLeaves with
  | none => none
  | some r => if index = r then none else some (parentArith index)

/-- `sibling(index, numLeaves)`: the other child of the parent. -/
def sibling (index numLeaves : Nat) : Option Nat :=
  match parent index numLeaves with
  | none => none
  | some p =>
    match leftChild p with
    | none => none
    | some l => if index = l then rightChild p else some l

/-- Fuel-indexed body of the loop in `directPath`:
`while (current !== r) { current = parent(current, n); path.push(current) }`.
Inside the loop `current ≠ r`, so `parent` never throws and is `parentArith`. -/
def dpLoop (r : Nat) : Nat → Nat → Option (List Nat)
  | _, 0 => none
  | current, fuel+1 =>
    if current = r then some []
    else (dpLoop r (parentArith current) fuel).map (parentArith current :: ·)

/-- `directPath(leafIndex, numLeaves)`. -/
def directPath (leafIndex numLeaves : Nat) : Option (List Nat) :=
  match root numLeaves with
  | none => none
  | some r =>
    if 2 * leafIndex = r then some []
    else dpLoop r (2 * leafIndex) (treeWidth numLeaves + 1)

/-- Fuel-indexed body of the loop in `copath`:
`while (current !== r) { result.push(sibling(current, n)); current = parent(current, n) }`. -/
def cpLoop (numLeaves r : Nat) : Nat → Nat → Option (List Nat)
  | _, 0 => none
  | current, fuel+1 =>
    if current = r then some []
    else
      match sibling current numLeaves with
      | none => none
      | some s => (cpLoop numLeaves r (parentArith current) fuel).map (s :: ·)

/-- `copath(leafIndex, numLeaves)`. -/
def copath (leafIndex numLeaves : Nat) : Option (List Nat) :=
  match root numLeaves with
  | none => none
  | some r =>
    if 2 * leafIndex = r then some []
    else cpLoop numLeaves r (2 * leafIndex) (treeWidth numLeaves + 1)

/-- The ancestor of leaf `p` at level `j` in the (virtual, unbounded) complete
binary tree the source's index arithmetic operates on. -/
def anc (p j : Nat) : Nat := p / 2 ^ j * 2 ^ (j + 1) + (2 ^ j - 1)

/-- The sibling of `anc p j`: the other child of `anc p (j+1)`. -/
def sibOf (p j : Nat) : Nat :=
  (if p / 2 ^ j % 2 = 0 then p / 2 ^ j + 1 else p / 2 ^ j - 1) * 2 ^ (j + 1) +
    (2 ^ j - 1)

/-! ### Basic facts about `nodeLevel` -/

theorem nodeLevelAux_congr (x : Nat) : ∀ f1 f2, x ≤ f1 → x ≤ f2 →
    nodeLevelAux x f1 = nodeLevelAux x f2 := by
  induction x using Nat.strong_induction_on with
  | _ x ih =>
    intro f1 f2 h1 h2
    by_cases hx : x = 0
    · subst hx
      cases f1 <;> cases f2 <;> simp [nodeLevelAux]
    · obtain ⟨g1, rfl⟩ : ∃ k, f1 = k + 1 := ⟨f1 - 1, by omega⟩
      obtain ⟨g2, rfl⟩ : ∃ k, f2 = k + 1 := ⟨f2 - 1, by omega⟩
      simp only [nodeLevelAux]
      by_cases h : x % 2 = 1
      · simp only [h, if_true]
        have hlt : x / 2 < x := Nat.div_lt_self (by omega) (by omega)
        rw [ih (x / 2) hlt g1 g2 (by omega) (by omega)]
      · simp [h]

theorem nodeLevel_even (x : Nat) (h : x % 2 = 0) : nodeLevel x = 0 := by
  unfold nodeLevel
  cases x with
  | zero => simp [nodeLevelAux]
  | succ n => simp [nodeLevelAux, h]

theorem nodeLevel_odd (x : Nat) (h : x % 2 = 1) :
    nodeLevel x = nodeLevel (x / 2) + 1 := by
  unfold nodeLevel
  have hx : 0 < x := by omega
  cases x with
  | zero => omega
  | succ n =>
    simp only [nodeLevelAux, h, if_true]
    have hlt : (n + 1) / 2 ≤ n := by omega
    rw [nodeLevelAux_congr ((n+1)/2) n ((n+1)/2) hlt (Nat.le_refl _)]

/-- Characterisation: a number of the form `z·2^(L+1) + (2^L − 1)` has exactly
`L` trailing ones. -/
theorem nodeLevel_form (L : Nat) : ∀ z, nodeLevel (z * 2 ^ (L + 1) + (2 ^ L - 1)) = L := by
  induction L with
  | zero =>
    intro z
    apply nodeLevel_even
    omega
  | succ L ih =>
    intro z
    have h1 : 0 < 2 ^ L := Nat.pos_pow_of_pos L (by omega)
    have hval : z * 2 ^ (L + 1 + 1) + (2 ^ (L + 1) - 1) =
        2 * (z * 2 ^ (L + 1) + (2 ^ L - 1)) + 1 := by
      have h2 : 2 ^ (L + 1) = 2 * 2 ^ L := by ring
      have h3 : z * 2 ^ (L + 1 + 1) = 2 * (z * 2 ^ (L + 1)) := by ring
      omega
    rw [hval, nodeLevel_odd _ (by omega)]
    have hdiv : (2 * (z * 2 ^ (L + 1) + (2 ^ L - 1)) + 1) / 2 =
        z * 2 ^ (L + 1) + (2 ^ L - 1) := by omega
    rw [hdiv, ih z]

/-- Every number is of the form `z·2^(L+1) + (2^L − 1)` with `L` its level. -/
theorem nodeLevel_rep (x : Nat) :
    ∃ z, x = z * 2 ^ (nodeLevel x + 1) + (2 ^ nodeLevel x - 1) := by
  induction x using Nat.strong_induction_on with
  | _ x ih =>
    by_cases h : x % 2 = 1
    · have hx : 0 < x := by omega
      obtain ⟨z, hz⟩ := ih (x / 2) (Nat.div_lt_self hx (by omega))
      refine ⟨z, ?_⟩
      rw [nodeLevel_odd x h]
      set L := nodeLevel (x / 2) with hL
      have h1 : 0 < 2 ^ L := Nat.pos_pow_of_pos L (by omega)
      have hpow2 : 2 ^ (L + 1) = 2 * 2 ^ L := by ring
      have hpow3 : z * 2 ^ (L + 1 + 1) = 2 * (z * 2 ^ (L + 1)) := by ring
      omega
    · refine ⟨x / 2, ?_⟩
      rw [nodeLevel_even x (by omega)]
      simp only [pow_one, pow_zero]
      omega

/-! ### The parent and child arithmetic on the `(z, L)` representation -/

theorem div_pow_form (z L : Nat) :
    (z * 2 ^ (L + 1) + (2 ^ L - 1)) / 2 ^ (L + 1) = z := by
  have h2 : 2 ^ L - 1 < 2 ^ (L + 1) := by
    have h1 : 0 < 2 ^ L := Nat.pos_pow_of_pos L (by omega)
    have : 2 ^ (L + 1) = 2 * 2 ^ L := by ring
    omega
  rw [Nat.add_comm, Nat.add_mul_div_right _ _ (Nat.pos_pow_of_pos (L + 1) (by omega)),
    Nat.div_eq_of_lt h2, Nat.zero_add]

/-- `parentArith` sends the node with representation `(z, L)` to the node with
representation `(z / 2, L + 1)` — its parent in the virtual complete tree. -/
theorem parentArith_form (z L : Nat) :
    parentArith (z * 2 ^ (L + 1) + (2 ^ L - 1)) =
      z / 2 * 2 ^ (L + 1 + 1) + (2 ^ (L + 1) - 1) := by
  unfold parentArith
  rw [nodeLevel_form L z, div_pow_form z L]
  have h1 : 0 < 2 ^ L := Nat.pos_pow_of_pos L (by omega)
  have h2 : 2 ^ (L + 1) = 2 * 2 ^ L := by ring
  have h3 : z / 2 * 2 ^ (L + 1 + 1) = z / 2 * 2 * 2 ^ (L + 1) := by ring
  by_cases h : z % 2 = 0
  · rw [if_pos h, h3]
    have hz : z / 2 * 2 = z := by omega
    rw [hz]
    omega
  · rw [if_neg h, h3]
    have hz : z / 2 * 2 = z - 1 := by omega
    rw [hz]
    have h5 : (z - 1) * 2 ^ (L + 1) + 2 ^ (L + 1) = z * 2 ^ (L + 1) := by
      have h6 : 1 ≤ z := by omega
      calc (z - 1) * 2 ^ (L + 1) + 2 ^ (L + 1) = ((z - 1) + 1) * 2 ^ (L + 1) := by ring
        _ = z * 2 ^ (L + 1) := by rw [Nat.sub_add_cancel h6]
    omega

theorem parentArith_anc (p j : Nat) : parentArith (anc p j) = anc p (j + 1) := by
  unfold anc
  rw [parentArith_form (p / 2 ^ j) j, Nat.div_div_eq_div_mul]
  have : 2 ^ j * 2 = 2 ^ (j + 1) := by ring
  rw [this]

theorem nodeLevel_anc (p j : Nat) : nodeLevel (anc p j) = j := nodeLevel_form j _

theorem anc_zero (p : Nat) : anc p 0 = 2 * p := by
  unfold anc
  simp
  omega

/-- `leftChild` of a node with representation `(w, L+1)`. -/
theorem leftChild_form (w L : Nat) :
    leftChild (w * 2 ^ (L + 1 + 1) + (2 ^ (L + 1) - 1)) =
      some (2 * w * 2 ^ (L + 1) + (2 ^ L - 1)) := by
  unfold leftChild
  rw [nodeLevel_form (L + 1) w]
  have h1 : 0 < 2 ^ L := Nat.pos_pow_of_pos L (by omega)
  have h2 : 2 ^ (L + 1) = 2 * 2 ^ L := by ring
  have h3 : w * 2 ^ (L + 1 + 1) = 2 * w * 2 ^ (L + 1) := by ring
  simp only [if_neg (by omega : ¬ L + 1 = 0)]
  congr 1
  have h4 : L + 1 - 1 = L := by omega
  rw [h4]
  omega

/-- `rightChild` of a node with representation `(w, L+1)`. -/
theorem rightChild_form (w L : Nat) :
    rightChild (w * 2 ^ (L + 1 + 1) + (2 ^ (L + 1) - 1)) =
      some ((2 * w + 1) * 2 ^ (L + 1) + (2 ^ L - 1)) := by
  unfold rightChild
  rw [nodeLevel_form (L + 1) w]
  have h1 : 0 < 2 ^ L := Nat.pos_pow_of_pos L (by omega)
  have h2 : 2 ^ (L + 1) = 2 * 2 ^ L := by ring
  have h3 : w * 2 ^ (L + 1 + 1) = 2 * w * 2 ^ (L + 1) := by ring
  have h5 : (2 * w + 1) * 2 ^ (L + 1) = 2 * w * 2 ^ (L + 1) + 2 ^ (L + 1) := by ring
  simp only [if_neg (by omega : ¬ L + 1 = 0)]
  congr 1
  have h4 : L + 1 - 1 = L := by omega
  rw [h4]
  omega

/-! ### `log2Src` and the closed form of `root` -/

theorem log2Aux_congr (x : Nat) : ∀ f1 f2, x ≤ f1 → x ≤ f2 →
    log2Aux x f1 = log2Aux x f2 := by
  induction x using Nat.strong_induction_on with
  | _ x ih =>
    intro f1 f2 h1 h2
    by_cases hx : x ≤ 1
    · cases f1 <;> cases f2 <;> simp [log2Aux, hx]
    · obtain ⟨g1, rfl⟩ : ∃ k, f1 = k + 1 := ⟨f1 - 1, by omega⟩
      obtain ⟨g2, rfl⟩ : ∃ k, f2 = k + 1 := ⟨f2 - 1, by omega⟩
      simp only [log2Aux, if_neg (by omega : ¬ x ≤ 1)]
      have hlt : x / 2 < x := Nat.div_lt_self (by omega) (by omega)
      rw [ih (x / 2) hlt g1 g2 (by omega) (by omega)]

theorem log2Src_le_one (x : Nat) (h : x ≤ 1) : log2Src x = 0 := by
  unfold log2Src
  cases x with
  | zero => simp [log2Aux]
  | succ n => simp [log2Aux]; omega

theorem log2Src_step (x : Nat) (h : 2 ≤ x) : log2Src x = log2Src (x / 2) + 1 := by
  unfold log2Src
  obtain ⟨g, rfl⟩ : ∃ k, x = k + 1 := ⟨x - 1, by omega⟩
  simp only [log2Aux, if_neg (by omega : ¬ g + 1 ≤ 1)]
  rw [log2Aux_congr ((g+1)/2) g ((g+1)/2) (by omega) (Nat.le_refl _)]

/-- `2 ^ log2Src x ≤ x < 2 ^ (log2Src x + 1)` for `x ≥ 1`: the source `log2`
is the floor base-2 logarithm. -/
theorem log2Src_spec (x : Nat) (h : 1 ≤ x) :
    2 ^ log2Src x ≤ x ∧ x < 2 ^ (log2Src x + 1) := by
  induction x using Nat.strong_induction_on with
  | _ x ih =>
    by_cases hx : x ≤ 1
    · have : x = 1 := by omega
      subst this
      rw [log2Src_le_one 1 (by omega)]
      omega
    · have h2 : 2 ≤ x := by omega
      have hlt : x / 2 < x := Nat.div_lt_self (by omega) (by omega)
      obtain ⟨hlow, hhigh⟩ := ih (x / 2) hlt (by omega)
      rw [log2Src_step x h2]
      constructor
      · have : 2 ^ (log2Src (x / 2) + 1) = 2 * 2 ^ (log2Src (x / 2)) := by ring
        omega
      · have : 2 ^ (log2Src (x / 2) + 1 + 1) = 2 * 2 ^ (log2Src (x / 2) + 1) := by ring
        omega

/-- For `n ≥ 1` the loop in `root` never runs: the start index is already in
range, and the root is `2 ^ K − 1` for `K = log2Src (2n − 1)`. -/
theorem root_eq (n : Nat) (h : 1 ≤ n) :
    root n = some (2 ^ log2Src (2 * n - 1) - 1) := by
  unfold root rootAux
  have hw : treeWidth n = 2 * n - 1 := by
    unfold treeWidth
    rw [if_neg (by omega)]
    omega
  rw [hw]
  have h1 : 1 ≤ 2 * n - 1 := by omega
  obtain ⟨hlow, _⟩ := log2Src_spec (2 * n - 1) h1
  have hidx : 2 ^ log2Src (2 * n - 1) - 1 < 2 * n - 1 ∨
      2 ^ log2Src (2 * n - 1) - 1 = 2 * n - 1 - 1 + 1 - 1 := by omega
  have hpos : 0 < 2 ^ log2Src (2 * n - 1) := Nat.pos_pow_of_pos _ (by omega)
  simp only [if_pos (by omega : 2 ^ log2Src (2 * n - 1) - 1 < 2 * n - 1)]

theorem nodeLevel_root_form (K : Nat) : nodeLevel (2 ^ K - 1) = K := by
  have := nodeLevel_form K 0
  simpa using this

/-! ### Closed forms of `sibling`, `directPath` and `copath` -/

theorem mul_add_cancel_inj (m c a b : Nat) (hm : 0 < m)
    (h : a * m + c = b * m + c) : a = b := by
  have h2 : a * m = b * m := by omega
  exact Nat.eq_of_mul_eq_mul_right hm h2

/-- `sibling` on a non-root node with representation `(z, L)`: the partner
index `(z ± 1, L)` of the same level. -/
theorem sibling_form (n z L r : Nat) (hr : root n = some r)
    (hx : z * 2 ^ (L + 1) + (2 ^ L - 1) ≠ r) :
    sibling (z * 2 ^ (L + 1) + (2 ^ L - 1)) n =
      some ((if z % 2 = 0 then z + 1 else z - 1) * 2 ^ (L + 1) + (2 ^ L - 1)) := by
  unfold sibling parent
  rw [hr]
  simp only [if_neg hx]
  rw [parentArith_form, leftChild_form (z / 2) L]
  have hm : 0 < 2 ^ (L + 1) := Nat.pos_pow_of_pos (L + 1) (by omega)
  dsimp only
  by_cases h : z % 2 = 0
  · have hz : 2 * (z / 2) = z := by omega
    rw [if_pos h,
      if_pos (show z * 2 ^ (L + 1) + (2 ^ L - 1) =
        2 * (z / 2) * 2 ^ (L + 1) + (2 ^ L - 1) by rw [hz]),
      rightChild_form (z / 2) L]
    have h2 : 2 * (z / 2) + 1 = z + 1 := by omega
    rw [h2]
  · have hne : z * 2 ^ (L + 1) + (2 ^ L - 1) ≠ 2 * (z / 2) * 2 ^ (L + 1) + (2 ^ L - 1) := by
      intro heq
      have := mul_add_cancel_inj (2 ^ (L + 1)) (2 ^ L - 1) z (2 * (z / 2)) hm heq
      omega
    rw [if_neg h, if_neg hne]
    have h2 : 2 * (z / 2) = z - 1 := by omega
    rw [h2]

theorem sibling_anc (n p j r : Nat) (hr : root n = some r) (h : anc p j ≠ r) :
    sibling (anc p j) n = some (sibOf p j) := by
  unfold anc at *
  unfold sibOf
  exact sibling_form n (p / 2 ^ j) j r hr h

theorem anc_ne_root (p j K : Nat) (hj : j ≠ K) : anc p j ≠ 2 ^ K - 1 := by
  intro heq
  have h1 := nodeLevel_anc p j
  have h2 := nodeLevel_root_form K
  rw [heq, h2] at h1
  omega

theorem anc_top (p K : Nat) (hp : p < 2 ^ K) : anc p K = 2 ^ K - 1 := by
  unfold anc
  rw [Nat.div_eq_of_lt hp]
  simp

theorem dpLoop_eq (K p : Nat) (hp : p < 2 ^ K) :
    ∀ fuel j, j ≤ K → K - j < fuel →
      dpLoop (2 ^ K - 1) (anc p j) fuel =
        some ((List.range' (j + 1) (K - j)).map (anc p)) := by
  intro fuel
  induction fuel with
  | zero =>
    intro j hj hfuel
    omega
  | succ fuel ih =>
    intro j hj hfuel
    by_cases hjK : j = K
    · rw [hjK, anc_top p K hp]
      simp [dpLoop]
    · have hne : anc p j ≠ 2 ^ K - 1 := anc_ne_root p j K hjK
      unfold dpLoop
      rw [if_neg hne, parentArith_anc, ih (j + 1) (by omega) (by omega)]
      have hKj : K - j = (K - (j + 1)) + 1 := by omega
      rw [hKj, List.range'_succ, List.map_cons]
      rfl

theorem treeWidth_eq (n : Nat) (h : 1 ≤ n) : treeWidth n = 2 * n - 1 := by
  unfold treeWidth
  rw [if_neg (by omega)]
  omega

theorem n_le_pow_log (n : Nat) (h : 1 ≤ n) : n ≤ 2 ^ log2Src (2 * n - 1) := by
  obtain ⟨_, hhigh⟩ := log2Src_spec (2 * n - 1) (by omega)
  have : 2 ^ (log2Src (2 * n - 1) + 1) = 2 * 2 ^ log2Src (2 * n - 1) := by ring
  omega

theorem log_lt_width (n : Nat) (h : 1 ≤ n) : log2Src (2 * n - 1) < 2 * n := by
  obtain ⟨hlow, _⟩ := log2Src_spec (2 * n - 1) (by omega)
  have := Nat.lt_two_pow (log2Src (2 * n - 1))
  omega

/-- Closed form of `directPath`: for a valid leaf the loop terminates and
yields the ancestors `anc p 1, …, anc p K` with `K = log2(2n−1)`. -/
theorem directPath_eq (n p : Nat) (h1 : 1 ≤ n) (hp : p < n) :
    directPath p n =
      some ((List.range' 1 (log2Src (2 * n - 1))).map (anc p)) := by
  have hr := root_eq n h1
  set K := log2Src (2 * n - 1) with hK
  have hp2K : p < 2 ^ K := Nat.lt_of_lt_of_le hp (n_le_pow_log n h1)
  unfold directPath
  rw [hr, treeWidth_eq n h1]
  by_cases hK0 : K = 0
  · have hn1 : n = 1 := by
      have := n_le_pow_log n h1
      rw [← hK, hK0] at this
      omega
    subst hn1
    have hp0 : p = 0 := by omega
    subst hp0
    rw [hK0]
    simp
  · have hodd : (2 ^ K - 1) % 2 = 1 := by
      have h2 : 2 ∣ 2 ^ K := dvd_pow_self 2 hK0
      have h3 := Nat.pos_pow_of_pos K (show 0 < 2 by omega)
      omega
    dsimp only
    rw [if_neg (by omega : ¬ 2 * p = 2 ^ K - 1)]
    have h2p : 2 * p = anc p 0 := (anc_zero p).symm
    rw [h2p, dpLoop_eq K p hp2K (2 * n - 1 + 1) 0 (by omega)
      (by have := log_lt_width n h1; omega)]
    simp

theorem cpLoop_eq (n K p : Nat) (hroot : root n = some (2 ^ K - 1)) (hp : p < 2 ^ K) :
    ∀ fuel j, j ≤ K → K - j < fuel →
      cpLoop n (2 ^ K - 1) (anc p j) fuel =
        some ((List.range' j (K - j)).map (sibOf p)) := by
  intro fuel
  induction fuel with
  | zero =>
    intro j hj hfuel
    omega
  | succ fuel ih =>
    intro j hj hfuel
    by_cases hjK : j = K
    · rw [hjK, anc_top p K hp]
      simp [cpLoop]
    · have hne : anc p j ≠ 2 ^ K - 1 := anc_ne_root p j K hjK
      unfold cpLoop
      rw [if_neg hne, sibling_anc n p j _ hroot hne, parentArith_anc,
        ih (j + 1) (by omega) (by omega)]
      have hKj : K - j = (K - (j + 1)) + 1 := by omega
      rw [hKj, List.range'_succ, List.map_cons]
      rfl

/-- Closed form of `copath`: the siblings `sibOf p 0, …, sibOf p (K−1)`. -/
theorem copath_eq (n p : Nat) (h1 : 1 ≤ n) (hp : p < n) :
    copath p n =
      some ((List.range' 0 (log2Src (2 * n - 1))).map (sibOf p)) := by
  have hr := root_eq n h1
  set K := log2Src (2 * n - 1) with hK
  have hp2K : p < 2 ^ K := Nat.lt_of_lt_of_le hp (n_le_pow_log n h1)
  unfold copath
  rw [hr, treeWidth_eq n h1]
  by_cases hK0 : K = 0
  · have hn1 : n = 1 := by
      have := n_le_pow_log n h1
      rw [← hK, hK0] at this
      omega
    subst hn1
    have hp0 : p = 0 := by omega
    subst hp0
    rw [hK0]
    simp
  · have hodd : (2 ^ K - 1) % 2 = 1 := by
      have h2 : 2 ∣ 2 ^ K := dvd_pow_self 2 hK0
      have h3 := Nat.pos_pow_of_pos K (show 0 < 2 by omega)
      omega
    dsimp only
    rw [if_neg (by omega : ¬ 2 * p = 2 ^ K - 1)]
    have h2p : 2 * p = anc p 0 := (anc_zero p).symm
    rw [h2p, cpLoop_eq n K p hr hp2K (2 * n - 1 + 1) 0 (by omega)
      (by have := log_lt_width n h1; omega)]
    simp

/-! ### Bounds on the indices produced (for C10) -/

theorem anc_le (p j K : Nat) (hp : p < 2 ^ K) (hj : j ≤ K) :
    anc p j ≤ 2 ^ (K + 1) - 2 := by
  unfold anc
  have ha : 0 < 2 ^ j := Nat.pos_pow_of_pos j (by omega)
  have haK : 0 < 2 ^ K := Nat.pos_pow_of_pos K (by omega)
  have hK1 : 2 ^ (K + 1) = 2 * 2 ^ K := by ring
  have hj1 : 2 ^ (j + 1) = 2 * 2 ^ j := by ring
  by_cases hjK : j = K
  · subst hjK
    rw [Nat.div_eq_of_lt hp]
    omega
  · have hbK : 2 ^ (K - j) * 2 ^ (j + 1) = 2 ^ (K + 1) := by
      rw [← pow_add]
      congr 1
      omega
    have h4 : 2 ^ K = 2 ^ (K - j) * 2 ^ j := by
      rw [← pow_add]
      congr 1
      omega
    have h5 : p / 2 ^ j < 2 ^ (K - j) := by
      rw [Nat.div_lt_iff_lt_mul ha]
      omega
    have hstep : (p / 2 ^ j + 1) * 2 ^ (j + 1) ≤ 2 ^ (K + 1) := by
      calc (p / 2 ^ j + 1) * 2 ^ (j + 1) ≤ 2 ^ (K - j) * 2 ^ (j + 1) :=
            mul_le_mul_right' (by omega : p / 2 ^ j + 1 ≤ 2 ^ (K - j)) _
        _ = 2 ^ (K + 1) := hbK
    have hexpand : (p / 2 ^ j + 1) * 2 ^ (j + 1) =
        p / 2 ^ j * 2 ^ (j + 1) + 2 ^ (j + 1) := by ring
    omega

theorem even_pair_step (z b : Nat) (h1 : z % 2 = 0) (h2 : b % 2 = 0) (h3 : z < b) :
    z + 1 + 1 ≤ b := by
  omega

theorem odd_pred_step (z b : Nat) (h2 : z < b) : z - 1 + 1 ≤ b := by
  omega

theorem sibOf_le (p j K : Nat) (hp : p < 2 ^ K) (hj : j < K) :
    sibOf p j ≤ 2 ^ (K + 1) - 2 := by
  unfold sibOf
  have ha : 0 < 2 ^ j := Nat.pos_pow_of_pos j (by omega)
  have hj1 : 2 ^ (j + 1) = 2 * 2 ^ j := by ring
  have hbK : 2 ^ (K - j) * 2 ^ (j + 1) = 2 ^ (K + 1) := by
    rw [← pow_add]
    congr 1
    omega
  have h4 : 2 ^ K = 2 ^ (K - j) * 2 ^ j := by
    rw [← pow_add]
    congr 1
    omega
  have h5 : p / 2 ^ j < 2 ^ (K - j) := by
    rw [Nat.div_lt_iff_lt_mul ha]
    omega
  have hbeven : 2 ^ (K - j) % 2 = 0 := by
    have h6 : 2 ∣ 2 ^ (K - j) := dvd_pow_self 2 (by omega)
    omega
  by_cases h : p / 2 ^ j % 2 = 0
  · rw [if_pos h]
    have hstep : (p / 2 ^ j + 1 + 1) * 2 ^ (j + 1) ≤ 2 ^ (K + 1) := by
      calc (p / 2 ^ j + 1 + 1) * 2 ^ (j + 1) ≤ 2 ^ (K - j) * 2 ^ (j + 1) :=
            mul_le_mul_right' (even_pair_step _ _ h hbeven h5) _
        _ = 2 ^ (K + 1) := hbK
    have hexpand : (p / 2 ^ j + 1 + 1) * 2 ^ (j + 1) =
        (p / 2 ^ j + 1) * 2 ^ (j + 1) + 2 ^ (j + 1) := by ring
    omega
  · rw [if_neg h]
    have hstep : (p / 2 ^ j - 1 + 1) * 2 ^ (j + 1) ≤ 2 ^ (K + 1) := by
      calc (p / 2 ^ j - 1 + 1) * 2 ^ (j + 1) ≤ 2 ^ (K - j) * 2 ^ (j + 1) :=
            mul_le_mul_right' (odd_pred_step _ _ h5) _
        _ = 2 ^ (K + 1) := hbK
    have hexpand : (p / 2 ^ j - 1 + 1) * 2 ^ (j + 1) =
        (p / 2 ^ j - 1) * 2 ^ (j + 1) + 2 ^ (j + 1) := by ring
    omega

/-! ## The TreeKEM state (src/treekem.ts lines 17-43 and 191-513)

Symbolic cryptography model.  A fresh 32-byte random value or a derived node
secret is a `SecData` term; `deriveNodeSecret` (HKDF with the tree-node info
string) is the constructor `SecData.derived`, injective and free, which is
exactly the collision-freeness the code relies on.  An ML-KEM key pair is a
single `Nat` identifier: `publicKey = secretKey = id` for honestly generated
pairs, and `mlKemEncapsulate`/`encrypt` to a public key produces a ciphertext
that `mlKemDecapsulate`/`decrypt` opens precisely under the matching secret
key — any other key makes the AES-GCM tag check fail, which the model returns
as `none`.  Fresh randomness (`crypto.getRandomValues`,
`generateMlKemKeyPair`) is modelled by threading a counter. -/

/-- A 32-byte secret: either fresh randomness (with its draw number) or the
HKDF-SHA-256 tree-node derivation of another secret. -/
inductive SecData where
  | fresh (id : Nat)
  | derived (s : SecData)
deriving DecidableEq, Repr

/-- `deriveNodeSecret` (HKDF, info `"parrhesia-tree-node"`). -/
def deriveNodeSecret (childSecret : SecData) : SecData := SecData.derived childSecret

/-- `encryptToNode(secret, recipientPub)`: the pair (ML-KEM ciphertext,
AES-GCM ciphertext), symbolically the recipient key id with the payload. -/
def encryptToNode (secret : SecData) (recipientPub : Nat) : Nat × SecData :=
  (recipientPub, secret)

/-- `decryptFromNode(ct, encSecret, mySecretKey)`: decapsulate and open; a
mismatched secret key makes the AEAD tag check throw (`none`). -/
def decryptFromNode (ct : Nat × SecData) (mySecretKey : Nat) : Option SecData :=
  if ct.1 = mySecretKey then some ct.2 else none

/-- `TreeNode` of src/treekem.ts: three nullable fields. -/
structure TreeNode where
  publicKey : Option Nat
  secretKey : Option Nat
  secret : Option SecData
deriving DecidableEq, Repr

def blankTreeNode : TreeNode := ⟨none, none, none⟩

/-- `TreeKemPathEntry`.  `newPublicKey` is `none` for the empty string; `enc`
bundles `mlKemCiphertext`/`encryptedSecret`, `none` for the empty strings. -/
structure TreeKemPathEntry where
  nodeIndex : Nat
  newPublicKey : Option Nat
  enc : Option (Nat × SecData)
deriving DecidableEq, Repr

/-- `TreeKemCommit`. -/
structure TreeKemCommit where
  committerLeafPos : Nat
  leafPublicKey : Nat
  path : List TreeKemPathEntry
  epoch : Nat
deriving DecidableEq, Repr

/-- `TreeKemWelcome`. -/
structure TreeKemWelcome where
  treePublicKeys : List (Option Nat)
  numLeaves : Nat
  myLeafPos : Nat
  pathSecrets : List TreeKemPathEntry
  epoch : Nat
deriving DecidableEq, Repr

/-- `TreeKemState`: the sparse nodes array (`none` is a `null` slot),
`numLeaves` and `myLeafPos`. -/
structure TreeKemState where
  nodes : List (Option TreeNode)
  numLeaves : Nat
  myLeafPos : Nat
deriving DecidableEq, Repr

/-- Reading `nodes[index]` (out of range is `undefined`, modelled `none`). -/
def getNode (nodes : List (Option TreeNode)) (index : Nat) : Option TreeNode :=
  (nodes.getD index none)

/-- Pad the array with `null` up to length `len`
(`while (nodes.length <= index) nodes.push(null)`). -/
def padTo (nodes : List (Option TreeNode)) (len : Nat) : List (Option TreeNode) :=
  nodes ++ List.replicate (len - nodes.length) none

/-- `ensureNode(nodes, index)`: pad, then materialise a blank node if the slot
is `null`. -/
def ensureNode (nodes : List (Option TreeNode)) (index : Nat) : List (Option TreeNode) :=
  let padded := padTo nodes (index + 1)
  match getNode padded index with
  | some _ => padded
  | none => padded.set index (some blankTreeNode)

/-- `ensureNode` followed by a field update of the returned node (the callers
of `ensureNode` always mutate the node they get back). -/
def modifyNode (nodes : List (Option TreeNode)) (index : Nat)
    (f : TreeNode → TreeNode) : List (Option TreeNode) :=
  let ensured := ensureNode nodes index
  ensured.set index (some (f ((getNode ensured index).getD blankTreeNode)))

/-- `blankNode(nodes, index)`: only blanks slots that exist and are non-null. -/
def blankNode (nodes : List (Option TreeNode)) (index : Nat) : List (Option TreeNode) :=
  if index < nodes.length ∧ (getNode nodes index).isSome then
    nodes.set index (some blankTreeNode)
  else nodes

/-- `resolveNode(nodeIdx)` (fuel-indexed; the recursion descends one level per
step, so `index + 1` fuel always suffices): the node itself if it carries a
public key, else the first descendant carrying one, left subtree first. -/
def resolveNode (nodes : List (Option TreeNode)) : Nat → Nat → Option TreeNode
  | _, 0 => none
  | nodeIdx, fuel+1 =>
    if nodes.length ≤ nodeIdx then none
    else
      match getNode nodes nodeIdx with
      | none => none
      | some node =>
        if node.publicKey.isSome then some node
        else if isLeaf nodeIdx then none
        else if nodeLevel nodeIdx = 0 then none
        else
          match leftChild nodeIdx, rightChild nodeIdx with
          | some l, some r =>
            match resolveNode nodes l fuel with
            | some found => some found
            | none => resolveNode nodes r fuel
          | _, _ => none

/-- `findDecryptionNode(nodeIdx)` (fuel-indexed like `resolveNode`): the first
node in the subtree that still holds a KEM secret key. -/
def findDecryptionNode (nodes : List (Option TreeNode)) : Nat → Nat → Option TreeNode
  | _, 0 => none
  | nodeIdx, fuel+1 =>
    if nodes.length ≤ nodeIdx then none
    else
      match getNode nodes nodeIdx with
      | node =>
        match node with
        | some nd =>
          if nd.secretKey.isSome then some nd
          else
            if ¬ isLeaf nodeIdx ∧ nodeLevel nodeIdx > 0 then
              match leftChild nodeIdx, rightChild nodeIdx with
              | some l, some r =>
                match findDecryptionNode nodes l fuel with
                | some found => some found
                | none => findDecryptionNode nodes r fuel
              | _, _ => none
            else none
        | none =>
          if ¬ isLeaf nodeIdx ∧ nodeLevel nodeIdx > 0 then
            match leftChild nodeIdx, rightChild nodeIdx with
            | some l, some r =>
              match findDecryptionNode nodes l fuel with
              | some found => some found
              | none => findDecryptionNode nodes r fuel
            | _, _ => none
          else none

/-- `addLeaf(mlKemPublicKey)`: returns leaf position and next state; `none`
when the source would diverge (a `directPath` loop that never reaches the
root, impossible for the positions the repository uses). -/
def addLeaf (st : TreeKemState) (mlKemPublicKey : Nat) : Option (Nat × TreeKemState) :=
  let leafPos := st.numLeaves
  let numLeaves := st.numLeaves + 1
  let nodeIdx := 2 * leafPos
  let nodes0 := modifyNode st.nodes nodeIdx
    (fun _ => { publicKey := some mlKemPublicKey, secretKey := none, secret := none })
  match directPath leafPos numLeaves, directPath st.myLeafPos numLeaves with
  | some dp, some oldDp =>
    let nodes1 := dp.foldl blankNode nodes0
    let nodes2 := oldDp.foldl ensureNode nodes1
    some (leafPos, ⟨nodes2, numLeaves, st.myLeafPos⟩)
  | _, _ => none

/-- The body of the path loop of `generateCommit`, one iteration per
`(directPath, copath)` index pair: derive, install secret and fresh key pair,
encapsulate to the resolved copath node. -/
def commitLoop : List (Nat × Nat) → List (Option TreeNode) → SecData → Nat →
    List TreeKemPathEntry × List (Option TreeNode) × Nat
  | [], nodes, _, ctr => ([], nodes, ctr)
  | (pathNodeIdx, copathNodeIdx) :: rest, nodes, currentSecret, ctr =>
    let nextSecret := deriveNodeSecret currentSecret
    let nodes1 := modifyNode nodes pathNodeIdx (fun nd => { nd with secret := some nextSecret })
    let kp := ctr
    let nodes2 := modifyNode nodes1 pathNodeIdx
      (fun nd => { nd with publicKey := some kp, secretKey := some kp })
    let entry : TreeKemPathEntry :=
      match resolveNode nodes2 copathNodeIdx (copathNodeIdx + 1) with
      | some copathNode =>
        match copathNode.publicKey with
        | some pk => ⟨pathNodeIdx, some kp, some (encryptToNode nextSecret pk)⟩
        | none => ⟨pathNodeIdx, some kp, none⟩
      | none => ⟨pathNodeIdx, some kp, none⟩
    let (entries, nodesRest, ctrRest) := commitLoop rest nodes2 nextSecret (ctr + 1)
    (entry :: entries, nodesRest, ctrRest)

/-- `generateCommit()`.  `ctr` threads the fresh randomness; the emitted
`epoch` field is the literal `0` of the source. -/
def generateCommit (st : TreeKemState) (ctr : Nat) :
    Option (TreeKemCommit × TreeKemState × Nat) :=
  let leafNodeIdx := 2 * st.myLeafPos
  let leafSecret := SecData.fresh ctr
  let nodes0 := modifyNode st.nodes leafNodeIdx (fun nd => { nd with secret := some leafSecret })
  let newLeafKp := ctr + 1
  let nodes1 := modifyNode nodes0 leafNodeIdx
    (fun nd => { nd with publicKey := some newLeafKp, secretKey := some newLeafKp })
  match directPath st.myLeafPos st.numLeaves, copath st.myLeafPos st.numLeaves with
  | some dp, some cp =>
    let (entries, nodes2, ctr2) := commitLoop (dp.zip cp) nodes1 leafSecret (ctr + 2)
    some (⟨st.myLeafPos, newLeafKp, entries, 0⟩, ⟨nodes2, st.numLeaves, st.myLeafPos⟩, ctr2)
  | _, _ => none

/-- Result of the two decryption-search loops of `processCommit`: a thrown
AEAD/KEM failure aborts the whole call, no hit continues, a hit records the
direct-path node, the plaintext secret and the remaining direct path. -/
inductive SearchRes where
  | threw
  | notFound
  | found (pathNodeIdx : Nat) (s : SecData) (restDp : List Nat)
deriving DecidableEq, Repr

/-- First search loop of `processCommit` (src/treekem.ts lines 344-365): walk
the receiver copath, skipping copath nodes that lie on the committer's direct
path, and try to decrypt the commit entry of the matching own-path node with
a key found under the copath node. -/
def searchLoop1 (nodes : List (Option TreeNode)) (cpath : List TreeKemPathEntry)
    (committerDp : List Nat) : List (Nat × Nat) → SearchRes
  | [] => .notFound
  | (myPathNode, myCopathNode) :: rest =>
    if myCopathNode ∈ committerDp then
      searchLoop1 nodes cpath committerDp rest
    else
      match cpath.find? (fun e => e.nodeIndex == myPathNode) with
      | some matchingEntry =>
        match matchingEntry.enc with
        | some ct =>
          match findDecryptionNode nodes myCopathNode (myCopathNode + 1) with
          | some myNode =>
            match myNode.secretKey with
            | some sk =>
              match decryptFromNode ct sk with
              | some s => .found myPathNode s (rest.map Prod.fst)
              | none => .threw
            | none => searchLoop1 nodes cpath committerDp rest
          | none => searchLoop1 nodes cpath committerDp rest
        | none => searchLoop1 nodes cpath committerDp rest
      | none => searchLoop1 nodes cpath committerDp rest

/-- Second search loop of `processCommit` (src/treekem.ts lines 367-384):
identical, except that nothing is skipped. -/
def searchLoop2 (nodes : List (Option TreeNode)) (cpath : List TreeKemPathEntry) :
    List (Nat × Nat) → SearchRes
  | [] => .notFound
  | (myPathNode, myCopathNode) :: rest =>
    match cpath.find? (fun e => e.nodeIndex == myPathNode) with
    | some matchingEntry =>
      match matchingEntry.enc with
      | some ct =>
        match findDecryptionNode nodes myCopathNode (myCopathNode + 1) with
        | some myNode =>
          match myNode.secretKey with
          | some sk =>
            match decryptFromNode ct sk with
            | some s => .found myPathNode s (rest.map Prod.fst)
            | none => .threw
          | none => searchLoop2 nodes cpath rest
        | none => searchLoop2 nodes cpath rest
      | none => searchLoop2 nodes cpath rest
    | none => searchLoop2 nodes cpath rest

/-- The hash-chain derivation loop shared by `processCommit` (lines 393-398)
and `fromWelcome` (lines 491-496). -/
def deriveRest (nodes : List (Option TreeNode)) (currentSecret : SecData) :
    List Nat → List (Option TreeNode)
  | [] => nodes
  | idx :: rest =>
    let nextSecret := deriveNodeSecret currentSecret
    deriveRest (modifyNode nodes idx (fun nd => { nd with secret := some nextSecret }))
      nextSecret rest

/-- `processCommit(commit)`.  Outer `none` is divergence of the path loops
(unreachable in the repository); `some (none, st)` is a throw — observe that
the new leaf public keys have already been installed and the path secrets
blanked in `st` by then; `some (some s, st)` returns the root secret. -/
def processCommit (st : TreeKemState) (commit : TreeKemCommit) :
    Option (Option SecData × TreeKemState) :=
  let committerLeafNode := 2 * commit.committerLeafPos
  let nodes0 := modifyNode st.nodes committerLeafNode
    (fun _ => { publicKey := some commit.leafPublicKey, secretKey := none, secret := none })
  let nodes1 := commit.path.foldl
    (fun ns entry => modifyNode ns entry.nodeIndex
      (fun _ => { publicKey := entry.newPublicKey, secretKey := none, secret := none }))
    nodes0
  match directPath st.myLeafPos st.numLeaves, copath st.myLeafPos st.numLeaves,
      directPath commit.committerLeafPos st.numLeaves with
  | some myDp, some myCp, some committerDp =>
    let afterSearch :=
      match searchLoop1 nodes1 commit.path committerDp (myDp.zip myCp) with
      | .found i s rest => SearchRes.found i s rest
      | .threw => .threw
      | .notFound => searchLoop2 nodes1 commit.path (myDp.zip myCp)
    match afterSearch with
    | .threw => some (none, ⟨nodes1, st.numLeaves, st.myLeafPos⟩)
    | .notFound => some (none, ⟨nodes1, st.numLeaves, st.myLeafPos⟩)
    | .found startNodeIdx decryptedSecret restDp =>
      let nodes2 := modifyNode nodes1 startNodeIdx
        (fun nd => { nd with secret := some decryptedSecret })
      let nodes3 := deriveRest nodes2 decryptedSecret restDp
      match root st.numLeaves with
      | none => some (none, ⟨nodes3, st.numLeaves, st.myLeafPos⟩)
      | some r =>
        let nodes4 := ensureNode nodes3 r
        match (getNode nodes4 r).getD blankTreeNode with
        | rootNode =>
          match rootNode.secret with
          | none => some (none, ⟨nodes4, st.numLeaves, st.myLeafPos⟩)
          | some s => some (some s, ⟨nodes4, st.numLeaves, st.myLeafPos⟩)
  | _, _, _ => none

/-- The path-secret selection loop of `generateWelcome` (lines 436-448): the
first direct-path node holding a secret, encapsulated to the joiner. -/
def firstSecretEntry (nodes : List (Option TreeNode)) (peerMlKemPub : Nat) :
    List Nat → List TreeKemPathEntry
  | [] => []
  | nodeIdx :: rest =>
    match getNode nodes nodeIdx with
    | some node =>
      match node.secret with
      | some s =>
        [⟨nodeIdx, node.publicKey, some (encryptToNode s peerMlKemPub)⟩]
      | none => firstSecretEntry nodes peerMlKemPub rest
    | none => firstSecretEntry nodes peerMlKemPub rest

/-- `generateWelcome(joinerLeafPos, peerMlKemPub, epoch)`. -/
def generateWelcome (st : TreeKemState) (joinerLeafPos peerMlKemPub epoch : Nat) :
    Option TreeKemWelcome :=
  let treePublicKeys := st.nodes.map (fun nd => nd.bind (·.publicKey))
  let treePublicKeys :=
    (treePublicKeys ++ List.replicate (2 * joinerLeafPos + 1 - treePublicKeys.length) none).set
      (2 * joinerLeafPos) (some peerMlKemPub)
  match directPath joinerLeafPos st.numLeaves with
  | some dp =>
    some ⟨treePublicKeys, st.numLeaves, joinerLeafPos, firstSecretEntry st.nodes peerMlKemPub dp,
      epoch⟩
  | none => none

/-- The honestly generated ML-KEM key pair with identifier `id`. -/
structure MlKemKeyPair where
  publicKey : Nat
  secretKey : Nat
deriving DecidableEq, Repr

/-- `TreeKemState.fromWelcome(welcome, myMlKemKeyPair)`; `none` models the
decryption throw (and the divergence of a bad `directPath`, unreachable). -/
def fromWelcome (welcome : TreeKemWelcome) (myMlKemKeyPair : MlKemKeyPair) :
    Option TreeKemState :=
  let nodes0 := (List.range welcome.treePublicKeys.length).foldl
    (fun ns i =>
      match welcome.treePublicKeys.getD i none with
      | some pk => modifyNode ns i (fun nd => { nd with publicKey := some pk })
      | none => ns)
    ([] : List (Option TreeNode))
  let myNodeIdx := 2 * welcome.myLeafPos
  let nodes1 := modifyNode nodes0 myNodeIdx
    (fun nd =>
      { nd with
        publicKey := some myMlKemKeyPair.publicKey
        secretKey := some myMlKemKeyPair.secretKey })
  match welcome.pathSecrets with
  | [] => some ⟨nodes1, welcome.numLeaves, welcome.myLeafPos⟩
  | entry :: _ =>
    match entry.enc with
    | none => none
    | some ct =>
      match decryptFromNode ct myMlKemKeyPair.secretKey with
      | none => none
      | some decryptedSecret =>
        match directPath welcome.myLeafPos welcome.numLeaves with
        | none => none
        | some dp =>
          match dp.findIdx? (fun i => i == entry.nodeIndex) with
          | none => some ⟨nodes1, welcome.numLeaves, welcome.myLeafPos⟩
          | some entryDpIdx =>
            let nodes2 := modifyNode nodes1 entry.nodeIndex
              (fun nd => { nd with secret := some decryptedSecret })
            let nodes3 := deriveRest nodes2 decryptedSecret (dp.drop (entryDpIdx + 1))
            some ⟨nodes3, welcome.numLeaves, welcome.myLeafPos⟩

/-- `getRootSecret()`: the root secret, else the own-leaf secret, else throw. -/
def getRootSecret (st : TreeKemState) : Option SecData :=
  match root st.numLeaves with
  | none => none
  | some r =>
    match (getNode st.nodes r).bind (·.secret) with
    | some s => some s
    | none => (getNode st.nodes (2 * st.myLeafPos)).bind (·.secret)

/-! ## The TOFU store (src/tofu.ts, first revision, lines 1-135)

`localStorage` holds a JSON record map; the functions below are the pure
content of `checkPeerKey`/`storePeerKey` with the store passed and returned
explicitly and `Date.now()` a parameter.  The lookup key
`JSON.stringify([roomId, publicKeyBase64])` is injective on the pair, so it
is modelled as the pair itself.  A JS `Record` has unique keys: the model is
an association list looked up and replaced at the first occurrence. -/

inductive VerificationStatus where
  | unverified
  | verified
  | keyChanged
deriving DecidableEq, Repr

/-- `StoredPeerKey`; `verifiedAt?` is an optional number, and `some 0` is
distinct from `none` even though both are falsy in JS. -/
structure StoredPeerKey where
  peerId : String
  roomId : String
  publicKeyBase64 : String
  status : VerificationStatus
  firstSeen : Nat
  lastSeen : Nat
  verifiedAt : Option Nat
deriving DecidableEq, Repr

/-- The peers map of the TOFU store, keyed by `(roomId, publicKeyBase64)`. -/
abbrev TofuStore : Type := List ((String × String) × StoredPeerKey)

def tofuLookup (store : TofuStore) (roomId publicKeyBase64 : String) :
    Option StoredPeerKey :=
  match store.find? (fun e => e.1 == (roomId, publicKeyBase64)) with
  | some e => some e.2
  | none => none

/-- `store.peers[key] = rec`: replace the (unique) binding of the key, or
append a new one. -/
def tofuSet (store : TofuStore) (roomId publicKeyBase64 : String)
    (rec : StoredPeerKey) : TofuStore :=
  match store with
  | [] => [((roomId, publicKeyBase64), rec)]
  | e :: rest =>
    if e.1 == (roomId, publicKeyBase64) then (e.1, rec) :: rest
    else e :: tofuSet rest roomId publicKeyBase64 rec

def VERIFICATION_MAX_AGE_MS : Nat := 30 * 24 * 60 * 60 * 1000

/-- The JS truthiness test `!record.verifiedAt`: true for `undefined` and for
the number `0`. -/
def verifiedAtFalsy : Option Nat → Bool
  | none => true
  | some t => t == 0

/-- `isVerificationExpired(record)` with `Date.now()` explicit; the
subtraction is JS number subtraction, hence over `Int`. -/
def isVerificationExpired (rec : StoredPeerKey) (now : Nat) : Bool :=
  if rec.status != VerificationStatus.verified then false
  else if verifiedAtFalsy rec.verifiedAt then true
  else decide ((now : Int) - (rec.verifiedAt.getD 0 : Int) > (VERIFICATION_MAX_AGE_MS : Int))

/-- `KeyCheckResult`. -/
structure KeyCheckResult where
  status : VerificationStatus
  stored : Option StoredPeerKey
  isNewKey : Bool
deriving DecidableEq, Repr

/-- `checkPeerKey(roomId, peerId, publicKeyBase64)` (first revision, lines
91-112): looked up by `(roomId, publicKey)`; an existing record is rebound to
the announcing `peerId` and its `lastSeen` refreshed before the expiry test;
expired verification is demoted to `unverified`.  Returns the result and the
saved store. -/
def checkPeerKey (store : TofuStore) (roomId peerId publicKeyBase64 : String)
    (now : Nat) : KeyCheckResult × TofuStore :=
  match tofuLookup store roomId publicKeyBase64 with
  | none => (⟨.unverified, none, true⟩, store)
  | some stored =>
    let stored1 := { stored with peerId := peerId, lastSeen := now }
    if isVerificationExpired stored1 now then
      let stored2 := { stored1 with status := .unverified, verifiedAt := none }
      (⟨.unverified, some stored2, false⟩, tofuSet store roomId publicKeyBase64 stored2)
    else
      (⟨stored1.status, some stored1, false⟩, tofuSet store roomId publicKeyBase64 stored1)

/-- `storePeerKey(roomId, peerId, publicKeyBase64)` (first revision, lines
64-83): insert or refresh, keeping an existing status and `firstSeen`. -/
def storePeerKey (store : TofuStore) (roomId peerId publicKeyBase64 : String)
    (now : Nat) : StoredPeerKey × TofuStore :=
  let existing := tofuLookup store roomId publicKeyBase64
  let rec1 : StoredPeerKey :=
    { peerId := peerId
      roomId := roomId
      publicKeyBase64 := publicKeyBase64
      status := (existing.map (·.status)).getD .unverified
      firstSeen := (existing.map (·.firstSeen)).getD now
      lastSeen := now
      verifiedAt := existing.bind (·.verifiedAt) }
  (rec1, tofuSet store roomId publicKeyBase64 rec1)

/-! ## Spec-modelled manager operations

The TreeKEM-aware `GroupKeyManager` revision (the one `src/websocket.ts`
calls: `addPeer` with an ML-DSA signature argument, `receiveCommit` with the
epoch discipline) is not among the shipped sources — only its callers and the
README describe it.  The definitions below are therefore modelled from the
spec (§4.4 `add_peer`, §4.2 `process_commit` step 6) rather than translated
from source.  ML-DSA-65 is symbolic: a signature is the signing key id with
the signed payload, and verification compares both. -/

/-- Modelled from the spec: an ML-DSA-65 signature, symbolically the signer's
key id together with the signed payload. -/
structure MlDsaSig where
  signerId : Nat
  payload : List Nat
deriving DecidableEq, Repr

/-- Modelled from the spec: `sign(sk, msg)` for the key pair with id `sk`. -/
def mlDsaSign (sk : Nat) (msg : List Nat) : MlDsaSig := ⟨sk, msg⟩

/-- Modelled from the spec: the 1952-byte ML-DSA public key of the key pair
with id `id` (an arbitrary injective encoding of the id into 1952 bytes). -/
def mlDsaPkBytes (id : Nat) : List Nat := id :: List.replicate 1951 0

/-- Modelled from the spec: `verify(pk, msg, sig)` — true iff `sig` was made
by the holder of `pk` over exactly `msg`. -/
def mlDsaVerify (pk : List Nat) (msg : List Nat) (sig : MlDsaSig) : Bool :=
  pk == mlDsaPkBytes sig.signerId && msg == sig.payload

inductive AddPeerError where
  | invalidKey
  | invalidSignature
  | tofuConflict
deriving DecidableEq, Repr

/-- A peer registry entry: signing pk, KEM pk, allocated leaf position. -/
structure PeerEntry where
  signingPk : List Nat
  kemPk : List Nat
  leafPos : Nat
deriving DecidableEq, Repr

/-- The group key manager state the spec describes: peer registry, TOFU
bindings by fingerprint, and the TreeKEM tree. -/
structure Manager where
  registry : List (Nat × PeerEntry)
  tofu : List (List Nat × (Nat × Bool))
  tree : TreeKemState
deriving DecidableEq, Repr

/-- Modelled from the spec: `fingerprint(signing_pk) = base64(signing_pk)`,
an injective encoding, modelled as the byte list itself. -/
def fingerprint (signingPk : List Nat) : List Nat := signingPk

/-- An injective packing of KEM public key bytes into the symbolic key id
used by the tree. -/
def kemPkId (kemPk : List Nat) : Nat := kemPk.foldl (fun a b => a * 256 + b) 1

/-- Modelled from the spec: `add_peer(peer_id, signing_pk, kem_pk, sig)` with
the four REQUIRED checks of §4.4 in order — key lengths, signature
verification, TOFU, then registry installation and `tree.add_leaf`.  The
`Bool` in a TOFU binding marks a record `KeyChanged`. -/
def addPeer (m : Manager) (peerId : Nat) (signingPk kemPk : List Nat)
    (sig : MlDsaSig) : Except AddPeerError Manager :=
  if signingPk.length ≠ 1952 then .error .invalidKey
  else if kemPk.length ≠ 1184 then .error .invalidKey
  else if ¬ mlDsaVerify signingPk kemPk sig then .error .invalidSignature
  else
    match (m.tofu.find? (fun e => e.1 == fingerprint signingPk)).map (·.2) with
    | some (boundPeer, keyChanged) =>
      if boundPeer ≠ peerId ∨ keyChanged = true then .error .tofuConflict
      else
        match addLeaf m.tree (kemPkId kemPk) with
        | some (leafPos, tree1) =>
          .ok { m with
                registry := m.registry ++ [(peerId, ⟨signingPk, kemPk, leafPos⟩)]
                tree := tree1 }
        | none => .error .invalidKey
    | none =>
      match addLeaf m.tree (kemPkId kemPk) with
      | some (leafPos, tree1) =>
        .ok { registry := m.registry ++ [(peerId, ⟨signingPk, kemPk, leafPos⟩)]
              tofu := m.tofu ++ [(fingerprint signingPk, (peerId, false))]
              tree := tree1 }
      | none => .error .invalidKey

inductive RecvOutcome where
  | staleCommit
  | decapFailure
  | ok (s : SecData)
deriving DecidableEq, Repr

/-- The manager-level epoch state of the spec. -/
structure ManagerEpochState where
  tree : TreeKemState
  epoch : Nat
deriving DecidableEq, Repr

/-- Modelled from the spec: `receive_commit` — §4.2 step 6: a commit whose
epoch is not exactly `current + 1` is rejected as `StaleCommit` with the
state untouched; otherwise the tree operation (from source) runs and the
epoch advances exactly once on success. -/
def receiveCommit (m : ManagerEpochState) (c : TreeKemCommit) :
    RecvOutcome × ManagerEpochState :=
  if c.epoch ≠ m.epoch + 1 then (.staleCommit, m)
  else
    match processCommit m.tree c with
    | some (some s, tree1) => (.ok s, ⟨tree1, m.epoch + 1⟩)
    | some (none, tree1) => (.decapFailure, ⟨tree1, m.epoch⟩)
    | none => (.decapFailure, m)

/-! ## Claim C8 — room size and `addLeaf` -/

/-- C8 counterexample: `addLeaf` called on a tree that already has 16 leaves
does not fail — it appends a 17th leaf (returned position 16) and increments
`numLeaves` to 17, contradicting the claim that the call fails and leaves the
state unchanged. -/
theorem c8_counterexample :
    (addLeaf ⟨[], 16, 0⟩ 5).map (fun res => (res.1, res.2.numLeaves)) =
      some (16, 17) := by
  decide

/-- C8 amended: `TreeKemState.addLeaf` enforces no room-size bound at all.
Whenever it returns (it does for every state the repository reaches), it
returns the old `numLeaves` as the new leaf position and unconditionally
increments `numLeaves`; the 16-participant cap is enforced outside this
module (the server's `room_full`), so `numLeaves ∈ [1, 16]` is not an
invariant maintained by `addLeaf`. -/
theorem c8_amended (st : TreeKemState) (pk : Nat) (res : Nat × TreeKemState)
    (h : addLeaf st pk = some res) :
    res.1 = st.numLeaves ∧ res.2.numLeaves = st.numLeaves + 1 ∧
      res.2.myLeafPos = st.myLeafPos := by
  simp only [addLeaf] at h
  split at h
  · cases h
    exact ⟨rfl, rfl, rfl⟩
  · cases h

theorem c8_amended_witness :
    (addLeaf ⟨[], 3, 0⟩ 7).map (fun res => (res.1, res.2.numLeaves, res.2.myLeafPos)) =
      some (3, 4, 0) := by
  match hres : addLeaf (⟨[], 3, 0⟩ : TreeKemState) 7 with
  | some res =>
    obtain ⟨h1, h2, h3⟩ := c8_amended ⟨[], 3, 0⟩ 7 res hres
    simp [h1, h2, h3]
  | none => exact absurd hres (by decide)

/-! ## Claim C5 — state mutation on a failed `processCommit` -/

/-- C5 counterexample: a `processCommit` that fails (no decryptable path
entry) has already overwritten the committer leaf's public key, so the nodes
array after the failed call differs from the one before it. -/
theorem c5_counterexample :
    (processCommit ⟨[some ⟨some 100, none, none⟩, some blankTreeNode,
        some ⟨some 2, some 2, none⟩], 2, 1⟩ ⟨0, 200, [], 0⟩).map
      (fun res => (res.1, getNode res.2.nodes 0)) =
        some (none, some ⟨some 200, none, none⟩) ∧
    getNode [some ⟨some 100, none, none⟩, some blankTreeNode,
        some ⟨some 2, some 2, none⟩] 0 = some ⟨some 100, none, none⟩ := by
  constructor
  · decide
  · decide

/-- C5 amended: a failed `processCommit` leaves `numLeaves` and `myLeafPos`
untouched, but the nodes array is not rolled back — the committer leaf and
the commit path nodes keep the new public keys installed (and their secrets
blanked) before the failure was detected. -/
theorem c5_amended (st : TreeKemState) (c : TreeKemCommit)
    (res : Option SecData × TreeKemState) (h : processCommit st c = some res)
    (hfail : res.1 = none) :
    res.2.numLeaves = st.numLeaves ∧ res.2.myLeafPos = st.myLeafPos := by
  simp only [processCommit] at h
  split at h
  · repeat' split at h
    all_goals cases h
    all_goals exact ⟨rfl, rfl⟩
  · cases h

theorem c5_amended_witness :
    (processCommit ⟨[some ⟨some 300, none, none⟩, some blankTreeNode,
        some ⟨some 4, some 4, none⟩], 2, 1⟩ ⟨0, 301, [], 0⟩).map
      (fun res => (res.1, res.2.numLeaves, res.2.myLeafPos)) =
        some (none, 2, 1) := by
  match hres : processCommit (⟨[some ⟨some 300, none, none⟩, some blankTreeNode,
      some ⟨some 4, some 4, none⟩], 2, 1⟩ : TreeKemState) ⟨0, 301, [], 0⟩ with
  | some res =>
    have hfail : res.1 = none := by
      have : (some res).map (fun r : Option SecData × TreeKemState => r.1) = some none := by
        rw [← hres]
        decide
      simpa using this
    obtain ⟨h1, h2⟩ := c5_amended _ _ res hres hfail
    simp [h1, h2, hfail]
  | none => exact absurd hres (by decide)

/-! ## Claim C1 — agreement between `generateCommit` and `processCommit` -/

/-- C1 failing input, evaluated: a two-leaf tree shared consistently (same
public keys, each side holding only its own leaf secret key).  The committer
at leaf 0 produces a commit whose only encapsulation targets the receiver's
leaf key (key id 2), and ends up holding root secret
`derived (fresh 10)` — yet the receiver's `processCommit` throws
`Could not decrypt any path node in commit` (result `none`), because the
decryption search calls `findDecryptionNode(myCp[i])`, the subtree of the
receiver's *copath* node, which can never contain the receiver's keys. -/
theorem c1_failing_input_eval :
    (generateCommit ⟨[some ⟨some 0, some 0, some (.fresh 0)⟩, some blankTreeNode,
        some ⟨some 2, none, none⟩], 2, 0⟩ 10).map
      (fun out => (out.1, getRootSecret out.2.1)) =
      some (⟨0, 11, [⟨1, some 12, some (2, .derived (.fresh 10))⟩], 0⟩,
        some (.derived (.fresh 10))) ∧
    (processCommit ⟨[some ⟨some 0, none, none⟩, some blankTreeNode,
        some ⟨some 2, some 2, none⟩], 2, 1⟩
      ⟨0, 11, [⟨1, some 12, some (2, .derived (.fresh 10))⟩], 0⟩).map
        (fun res => res.1) = some none := by
  constructor
  · decide
  · decide

/-! ## Claim C3 — ML-DSA signature check in `add_peer` (spec-modelled) -/

theorem mlDsaPkBytes_length (id : Nat) : (mlDsaPkBytes id).length = 1952 := by
  unfold mlDsaPkBytes
  rw [List.length_cons, List.length_replicate]

/-- C3: `add_peer` (modelled from the spec; the ML-DSA `GroupKeyManager`
revision is not among the shipped sources, only its caller `websocket.ts`)
fails with `InvalidSignature` whenever the signature does not verify over the
KEM public key — in particular for a genuine signature by the announced key
over any other payload, e.g. over the signing public key itself.  The
`Except` error means no peer is installed: the caller keeps its old registry
and tree. -/
theorem c3_invalid_signature (m : Manager) (peerId sk : Nat)
    (signingPk kemPk payload : List Nat) (sig : MlDsaSig) :
    (signingPk.length = 1952 → kemPk.length = 1184 →
      mlDsaVerify signingPk kemPk sig = false →
      addPeer m peerId signingPk kemPk sig = .error .invalidSignature) ∧
    (signingPk = mlDsaPkBytes sk → kemPk.length = 1184 → payload ≠ kemPk →
      addPeer m peerId signingPk kemPk (mlDsaSign sk payload) =
        .error .invalidSignature) := by
  constructor
  · intro hlen1 hlen2 hver
    unfold addPeer
    rw [if_neg (by omega), if_neg (by omega), if_pos (by simp [hver])]
  · intro hpk hlen2 hpay
    unfold addPeer
    have hlen1 : signingPk.length = 1952 := by
      rw [hpk, mlDsaPkBytes_length]
    have hbeq : (kemPk == payload) = false :=
      beq_eq_false_iff_ne.mpr (fun h => hpay h.symm)
    have hver : mlDsaVerify signingPk kemPk (mlDsaSign sk payload) = false := by
      simp [mlDsaVerify, mlDsaSign, hbeq]
    rw [if_neg (by omega), if_neg (by omega), if_pos (by simp [hver])]

theorem c3_invalid_signature_witness :
    addPeer ⟨[], [], ⟨[], 1, 0⟩⟩ 1 (mlDsaPkBytes 3) (List.replicate 1184 7)
      (mlDsaSign 3 (mlDsaPkBytes 3)) = .error .invalidSignature := by
  apply (c3_invalid_signature ⟨[], [], ⟨[], 1, 0⟩⟩ 1 3 (mlDsaPkBytes 3)
    (List.replicate 1184 7) (mlDsaPkBytes 3) (mlDsaSign 3 (mlDsaPkBytes 3))).2
  · rfl
  · rw [List.length_replicate]
  · intro h
    have hlen := congrArg List.length h
    rw [mlDsaPkBytes_length, List.length_replicate] at hlen
    omega

/-! ## Claim C4 — epoch discipline of `receive_commit` (spec-modelled) -/

/-- C4: at the manager level (modelled from the spec — `treekem.ts` itself
carries no epoch state, and `generateCommit` hardcodes `epoch: 0`; the epoch
discipline lives in the `GroupKeyManager` revision absent from the shipped
sources), a commit whose epoch is not exactly `current + 1` is rejected as
`StaleCommit` with the state untouched, and a successful `receive_commit`
advances the epoch exactly once. -/
theorem c4_epoch_discipline (m : ManagerEpochState) (c : TreeKemCommit) :
    (c.epoch ≠ m.epoch + 1 → receiveCommit m c = (.staleCommit, m)) ∧
    (∀ s m2, receiveCommit m c = (.ok s, m2) → m2.epoch = m.epoch + 1) := by
  constructor
  · intro hne
    unfold receiveCommit
    rw [if_pos hne]
  · intro s m2 h
    unfold receiveCommit at h
    split at h
    · cases h
    · split at h <;> cases h
      rfl

def c4WitnessState : ManagerEpochState :=
  ⟨⟨[some ⟨some 1, none, none⟩, some blankTreeNode, some ⟨some 2, none, none⟩,
     some blankTreeNode, some ⟨some 3, none, none⟩, some ⟨some 5, some 77, none⟩,
     none], 4, 0⟩, 5⟩

def c4WitnessCommit : TreeKemCommit :=
  ⟨1, 9, [⟨1, some 10, none⟩, ⟨3, some 11, some (77, .fresh 3)⟩], 6⟩

theorem c4_epoch_discipline_witness :
    receiveCommit ⟨⟨[], 1, 0⟩, 5⟩ ⟨0, 9, [], 7⟩ = (.staleCommit, ⟨⟨[], 1, 0⟩, 5⟩) ∧
    (receiveCommit c4WitnessState c4WitnessCommit).2.epoch = 6 := by
  constructor
  · exact (c4_epoch_discipline ⟨⟨[], 1, 0⟩, 5⟩ ⟨0, 9, [], 7⟩).1 (by decide)
  · exact (c4_epoch_discipline c4WitnessState c4WitnessCommit).2 (.fresh 3)
      (receiveCommit c4WitnessState c4WitnessCommit).2 (by decide)

/-! ## Claim C10 counterexample — out-of-range node indices -/

/-- C10 counterexample: for the non-power-of-two leaf count 3, leaf 2's
direct path is `[5, 3]`, and node 5 lies outside the claimed bound
`2·numLeaves − 2 = 4` (the width-5 tree has nodes 0..4). -/
theorem c10_counterexample :
    directPath 2 3 = some [5, 3] ∧ ¬ (5 ≤ 2 * 3 - 2) := by
  constructor
  · decide
  · decide

/-! ## Claim C7 counterexample — node-math round-trips as claimed -/

/-- C7 counterexample: (i) at `numLeaves = 1`, `parent(2·0, 1)` throws (the
leaf is the root), so it does not lie on `directPath(0, 1) = []`; (ii) the
claimed equivalence `sibling(x, n) ∈ copath(p, n) ⇔ x ∈ copath(p, n)` fails
at `n = 2`, `p = 0`, `x = 0`: `sibling(0, 2) = 2 ∈ copath(0, 2) = [2]`, yet
`0 ∉ [2]`. -/
theorem c7_counterexample :
    (parent 0 1 = none ∧ directPath 0 1 = some []) ∧
    (sibling 0 2 = some 2 ∧ copath 0 2 = some [2] ∧
      2 ∈ [2] ∧ ¬ (0 ∈ [2])) := by
  constructor
  · constructor
    · decide
    · decide
  · refine ⟨by decide, by decide, by decide, by decide⟩

/-- C10 amended: for every `numLeaves ≥ 1` and leaf `p < numLeaves`, `root`,
`directPath` and `copath` all terminate without throwing; the root index lies
within `[0, 2·numLeaves − 2]`, and every index `directPath`/`copath` return
lies within the *virtual complete* tree the arithmetic operates on, i.e. is
at most `2·2^⌊log2(2·numLeaves−1)⌋ − 2`.  (The claimed bound `2·numLeaves−2`
itself fails for non-power-of-two leaf counts — see the counterexample.) -/
theorem c10_amended (n p : Nat) (h1 : 1 ≤ n) (hp : p < n) :
    ∃ r dp cp, root n = some r ∧ directPath p n = some dp ∧ copath p n = some cp ∧
      r ≤ 2 * n - 2 ∧
      (∀ y ∈ dp, y ≤ 2 * 2 ^ log2Src (2 * n - 1) - 2) ∧
      (∀ y ∈ cp, y ≤ 2 * 2 ^ log2Src (2 * n - 1) - 2) := by
  set K := log2Src (2 * n - 1) with hK
  have hp2K : p < 2 ^ K := Nat.lt_of_lt_of_le hp (n_le_pow_log n h1)
  obtain ⟨hlow, hhigh⟩ := log2Src_spec (2 * n - 1) (by omega)
  rw [← hK] at hlow hhigh
  have hpow : 2 ^ (K + 1) = 2 * 2 ^ K := by ring
  refine ⟨2 ^ K - 1, _, _, root_eq n h1, directPath_eq n p h1 hp, copath_eq n p h1 hp,
    by omega, ?_, ?_⟩
  · intro y hy
    obtain ⟨j, hj, rfl⟩ := List.mem_map.mp hy
    have hjr := List.mem_range'_1.mp hj
    have := anc_le p j K hp2K (by omega)
    omega
  · intro y hy
    obtain ⟨j, hj, rfl⟩ := List.mem_map.mp hy
    have hjr := List.mem_range'_1.mp hj
    have := sibOf_le p j K hp2K (by omega)
    omega

theorem c10_amended_witness :
    ∃ r dp cp, root 3 = some r ∧ directPath 2 3 = some dp ∧ copath 2 3 = some cp ∧
      r ≤ 2 * 3 - 2 ∧
      (∀ y ∈ dp, y ≤ 2 * 2 ^ log2Src (2 * 3 - 1) - 2) ∧
      (∀ y ∈ cp, y ≤ 2 * 2 ^ log2Src (2 * 3 - 1) - 2) :=
  c10_amended 3 2 (by decide) (by decide)

theorem partner_inj (u v : Nat)
    (h : (if u % 2 = 0 then u + 1 else u - 1) = (if v % 2 = 0 then v + 1 else v - 1)) :
    u = v := by
  split at h <;> split at h <;> omega

theorem pow_sub_one_odd (K : Nat) (h : 1 ≤ K) : (2 ^ K - 1) % 2 = 1 := by
  have h2 : 2 ∣ 2 ^ K := dvd_pow_self 2 (by omega)
  have h3 := Nat.pos_pow_of_pos K (show 0 < 2 by omega)
  omega

theorem nodeLevel_sibOf (p j : Nat) : nodeLevel (sibOf p j) = j := by
  unfold sibOf
  exact nodeLevel_form j _

/-- C7 amended: for `numLeaves ≥ 2` (at `numLeaves = 1` the lone leaf is the
root, and `parent(2·0, 1)` throws — see the counterexample) and `p <
numLeaves`: `parent(2p, n)` lies on `directPath(p, n)`; for every non-root
node `x` of the tree the children of `parent(x, n)` are exactly `{x,
sibling(x, n)}`; and `sibling(x, n) ∈ copath(p, n)` iff `x` lies on leaf
`p`'s node path (the leaf node followed by the direct path, root excluded) —
not iff `x ∈ copath(p, n)` as the claim's parenthetical equivalence has it
(see the counterexample). -/
theorem c7_amended (n p x : Nat) (hn : 2 ≤ n) (hp : p < n) :
    (∃ pr dp, parent (2 * p) n = some pr ∧ directPath p n = some dp ∧ pr ∈ dp) ∧
    (x < 2 * n - 1 → ∀ r, root n = some r → x ≠ r →
      ∃ P l rc s, parent x n = some P ∧ leftChild P = some l ∧
        rightChild P = some rc ∧ sibling x n = some s ∧
        ({l, rc} : Finset ℕ) = {x, s}) ∧
    (∀ dp cp, directPath p n = some dp → copath p n = some cp →
      ((∃ s, sibling x n = some s ∧ s ∈ cp) ↔ x ∈ (2 * p :: dp).dropLast)) := by
  have h1 : (1 : Nat) ≤ n := by omega
  set K := log2Src (2 * n - 1) with hK
  obtain ⟨hlow, hhigh⟩ := log2Src_spec (2 * n - 1) (by omega)
  rw [← hK] at hlow hhigh
  have hK1 : 1 ≤ K := by
    by_contra hc
    have hK0 : K = 0 := by omega
    rw [hK0] at hhigh
    norm_num at hhigh
    omega
  have hroot := root_eq n h1
  rw [← hK] at hroot
  have hp2K : p < 2 ^ K := by
    have := n_le_pow_log n h1
    rw [← hK] at this
    omega
  have hodd := pow_sub_one_odd K hK1
  have hdp := directPath_eq n p h1 hp
  rw [← hK] at hdp
  have hcp := copath_eq n p h1 hp
  rw [← hK] at hcp
  refine ⟨⟨anc p 1, (List.range' 1 K).map (anc p), ?_, hdp, ?_⟩, ?_, ?_⟩
  · unfold parent
    rw [hroot]
    dsimp only
    rw [if_neg (by omega : ¬ 2 * p = 2 ^ K - 1), ← anc_zero p, parentArith_anc]
  · exact List.mem_map.mpr ⟨1, List.mem_range'_1.mpr ⟨Nat.le_refl 1, by omega⟩, rfl⟩
  · intro hxlt r hr hxr
    rw [hroot] at hr
    injection hr with hr
    subst hr
    obtain ⟨z, hz⟩ := nodeLevel_rep x
    have hpar := parentArith_form z (nodeLevel x)
    rw [← hz] at hpar
    have hleft := leftChild_form (z / 2) (nodeLevel x)
    have hright := rightChild_form (z / 2) (nodeLevel x)
    have hsib := sibling_form n z (nodeLevel x) (2 ^ K - 1) hroot (by rw [← hz]; exact hxr)
    rw [← hz] at hsib
    refine ⟨parentArith x,
      2 * (z / 2) * 2 ^ (nodeLevel x + 1) + (2 ^ nodeLevel x - 1),
      (2 * (z / 2) + 1) * 2 ^ (nodeLevel x + 1) + (2 ^ nodeLevel x - 1),
      (if z % 2 = 0 then z + 1 else z - 1) * 2 ^ (nodeLevel x + 1) +
        (2 ^ nodeLevel x - 1), ?_, ?_, ?_, hsib, ?_⟩
    · unfold parent
      rw [hroot]
      dsimp only
      rw [if_neg hxr]
    · rw [hpar]
      exact hleft
    · rw [hpar]
      exact hright
    · by_cases hz2 : z % 2 = 0
      · have e1 : 2 * (z / 2) = z := by omega
        rw [if_pos hz2, e1, ← hz]
      · have e2 : 2 * (z / 2) + 1 = z := by omega
        have e1 : 2 * (z / 2) = z - 1 := by omega
        rw [if_neg hz2, e2, e1, ← hz]
        exact Finset.pair_comm _ _
  · intro dp cp hdp2 hcp2
    rw [hdp] at hdp2
    injection hdp2 with hdp2
    subst hdp2
    rw [hcp] at hcp2
    injection hcp2 with hcp2
    subst hcp2
    have hlist : (2 * p :: (List.range' 1 K).map (anc p)).dropLast =
        (List.range' 0 K).map (anc p) := by
      have h0 : (2 * p :: (List.range' 1 K).map (anc p)) =
          (List.range' 0 (K + 1)).map (anc p) := by
        rw [List.range'_succ, List.map_cons, anc_zero]
      rw [h0, List.range'_concat, List.map_append]
      simp
    rw [hlist]
    constructor
    · rintro ⟨s, hs, hsmem⟩
      obtain ⟨j, hjmem, rfl⟩ := List.mem_map.mp hsmem
      have hj : j < K := by
        have := List.mem_range'_1.mp hjmem
        omega
      have hxr : x ≠ 2 ^ K - 1 := by
        intro he
        unfold sibling parent at hs
        rw [hroot, he] at hs
        simp at hs
      obtain ⟨z, hz⟩ := nodeLevel_rep x
      have hsib := sibling_form n z (nodeLevel x) (2 ^ K - 1) hroot (by rw [← hz]; exact hxr)
      rw [← hz] at hsib
      rw [hsib] at hs
      injection hs with hs
      have hlev : nodeLevel x = j := by
        have h1l := nodeLevel_form (nodeLevel x) (if z % 2 = 0 then z + 1 else z - 1)
        rw [hs, nodeLevel_sibOf] at h1l
        omega
      rw [hlev] at hs hz
      unfold sibOf at hs
      have hcoef := mul_add_cancel_inj (2 ^ (j + 1)) (2 ^ j - 1) _ _
        (Nat.pos_pow_of_pos (j + 1) (by omega)) hs
      have hzzp : z = p / 2 ^ j := partner_inj z (p / 2 ^ j) hcoef
      exact List.mem_map.mpr ⟨j, hjmem, by unfold anc; rw [hz, ← hzzp]⟩
    · intro hxmem
      obtain ⟨j, hjmem, rfl⟩ := List.mem_map.mp hxmem
      have hj : j < K := by
        have := List.mem_range'_1.mp hjmem
        omega
      refine ⟨sibOf p j, sibling_anc n p j _ hroot (anc_ne_root p j K (by omega)), ?_⟩
      exact List.mem_map.mpr ⟨j, hjmem, rfl⟩

theorem c7_amended_witness :
    (∃ pr dp, parent (2 * 1) 3 = some pr ∧ directPath 1 3 = some dp ∧ pr ∈ dp) ∧
    (2 < 2 * 3 - 1 → ∀ r, root 3 = some r → 2 ≠ r →
      ∃ P l rc s, parent 2 3 = some P ∧ leftChild P = some l ∧
        rightChild P = some rc ∧ sibling 2 3 = some s ∧
        ({l, rc} : Finset ℕ) = {2, s}) ∧
    (∀ dp cp, directPath 1 3 = some dp → copath 1 3 = some cp →
      ((∃ s, sibling 2 3 = some s ∧ s ∈ cp) ↔ 2 ∈ (2 * 1 :: dp).dropLast)) :=
  c7_amended 3 1 2 (by decide) (by decide)

/-! ## C2: the welcome round trip -/

theorem range'_split (m : Nat) :
    ∀ (s n : Nat), List.range' s (m + n) = List.range' s m ++ List.range' (s + m) n := by
  induction m with
  | zero =>
    intro s n
    simp
  | succ m ih =>
    intro s n
    rw [show m + 1 + n = (m + n) + 1 from by omega, List.range'_succ]
    rw [show s + (m + 1) = (s + 1) + m from by omega]
    rw [List.range'_succ, List.cons_append, ih (s + 1) n]

theorem getD_append_replicate_none (l : List (Option TreeNode)) :
    ∀ (r k : Nat), (l ++ List.replicate k none).getD r none = l.getD r none := by
  induction l with
  | nil =>
    intro r k
    rw [List.nil_append]
    induction k generalizing r with
    | zero => rfl
    | succ k ihk =>
      cases r with
      | zero => rfl
      | succ r =>
        rw [List.replicate_succ, List.getD_cons_succ]
        exact ihk r
  | cons a l ih =>
    intro r k
    cases r with
    | zero => rfl
    | succ r =>
      rw [List.cons_append, List.getD_cons_succ, List.getD_cons_succ]
      exact ih r k

theorem getNode_padTo (nodes : List (Option TreeNode)) (len r : Nat) :
    getNode (padTo nodes len) r = getNode nodes r := by
  unfold getNode padTo
  exact getD_append_replicate_none nodes r _

theorem getD_set_self (l : List (Option TreeNode)) :
    ∀ (i : Nat) (v : Option TreeNode), i < l.length → (l.set i v).getD i none = v := by
  induction l with
  | nil =>
    intro i v h
    exact absurd h (by simp)
  | cons a l ih =>
    intro i v h
    cases i with
    | zero => rfl
    | succ i =>
      rw [List.set_cons_succ, List.getD_cons_succ]
      exact ih i v (by simpa using h)

theorem padTo_length (nodes : List (Option TreeNode)) (idx : Nat) :
    idx < (padTo nodes (idx + 1)).length := by
  unfold padTo
  rw [List.length_append, List.length_replicate]
  omega

theorem ensureNode_length (nodes : List (Option TreeNode)) (idx : Nat) :
    idx < (ensureNode nodes idx).length := by
  unfold ensureNode
  dsimp only
  split
  · exact padTo_length nodes idx
  · rw [List.length_set]
    exact padTo_length nodes idx

theorem getNode_ensureNode_self (nodes : List (Option TreeNode)) (idx : Nat) :
    getNode (ensureNode nodes idx) idx =
      some ((getNode nodes idx).getD blankTreeNode) := by
  have hpad : getNode (padTo nodes (idx + 1)) idx = getNode nodes idx :=
    getNode_padTo nodes (idx + 1) idx
  cases hN : getNode nodes idx with
  | some nd =>
    have he : ensureNode nodes idx = padTo nodes (idx + 1) := by
      unfold ensureNode
      dsimp only
      rw [hpad, hN]
    rw [he, hpad, hN]
    rfl
  | none =>
    have he : ensureNode nodes idx =
        (padTo nodes (idx + 1)).set idx (some blankTreeNode) := by
      unfold ensureNode
      dsimp only
      rw [hpad, hN]
    rw [he]
    unfold getNode
    rw [getD_set_self _ _ _ (padTo_length nodes idx)]
    rfl

theorem getNode_modifyNode_self (nodes : List (Option TreeNode)) (idx : Nat)
    (f : TreeNode → TreeNode) :
    getNode (modifyNode nodes idx f) idx =
      some (f ((getNode nodes idx).getD blankTreeNode)) := by
  have hens := getNode_ensureNode_self nodes idx
  unfold modifyNode
  dsimp only
  rw [hens]
  unfold getNode
  rw [getD_set_self _ _ _ (ensureNode_length nodes idx)]
  rfl

/-- The final write of the hash-chain loop determines the secret at the last
index of the path: `derive` applied once per list element. -/
theorem deriveRest_last_secret :
    ∀ (l : List Nat) (nodes : List (Option TreeNode)) (s : SecData) (r : Nat),
      l.getLast? = some r →
      (getNode (deriveRest nodes s l) r).bind (·.secret) =
        some (deriveNodeSecret^[l.length] s) := by
  intro l
  induction l with
  | nil =>
    intro nodes s r h
    exact absurd h (by simp)
  | cons x l' ih =>
    intro nodes s r hlast
    cases l' with
    | nil =>
      have hr : x = r := by simpa using hlast
      subst hr
      have he : deriveRest nodes s [x] =
          modifyNode nodes x
            (fun nd => { nd with secret := some (deriveNodeSecret s) }) := rfl
      rw [he, getNode_modifyNode_self]
      rfl
    | cons y l'' =>
      have hlast' : (y :: l'').getLast? = some r := by
        rw [← List.getLast?_cons_cons]
        exact hlast
      have he : deriveRest nodes s (x :: y :: l'') =
          deriveRest
            (modifyNode nodes x
              (fun nd => { nd with secret := some (deriveNodeSecret s) }))
            (deriveNodeSecret s) (y :: l'') := rfl
      rw [he]
      exact ih _ _ r hlast'

/-- Nodes with no secret (or no node at all) are skipped by the selection
loop of `generateWelcome`. -/
theorem firstSecretEntry_append (nodes : List (Option TreeNode)) (pk : Nat) :
    ∀ (l1 l2 : List Nat),
      (∀ y ∈ l1, (getNode nodes y).bind (·.secret) = none) →
      firstSecretEntry nodes pk (l1 ++ l2) = firstSecretEntry nodes pk l2 := by
  intro l1
  induction l1 with
  | nil =>
    intro l2 _
    rfl
  | cons y l ih =>
    intro l2 hskip
    have hy := hskip y (by simp)
    have hstep : firstSecretEntry nodes pk (y :: (l ++ l2)) =
        firstSecretEntry nodes pk (l ++ l2) := by
      cases hN : getNode nodes y with
      | none =>
        simp only [firstSecretEntry]
        rw [hN]
      | some nd =>
        have hy2 : nd.secret = none := by
          rw [hN] at hy
          simpa using hy
        simp only [firstSecretEntry]
        rw [hN]
        dsimp only
        rw [hy2]
    rw [List.cons_append, hstep]
    exact ih l2 (fun z hz => hskip z (by simp [hz]))

theorem firstSecretEntry_found (nodes : List (Option TreeNode)) (pk x : Nat)
    (l2 : List Nat) (nd : TreeNode) (s : SecData)
    (hN : getNode nodes x = some nd) (hs : nd.secret = some s) :
    firstSecretEntry nodes pk (x :: l2) = [⟨x, nd.publicKey, some (pk, s)⟩] := by
  simp only [firstSecretEntry]
  rw [hN]
  dsimp only
  rw [hs]
  rfl

theorem drop_length_append (l1 l2 : List Nat) (n : Nat) (h : l1.length = n) :
    (l1 ++ l2).drop n = l2 := by
  rw [← h, List.drop_left]

theorem findIdx_first (x : Nat) :
    ∀ (l1 l2 : List Nat) (i : Nat), x ∉ l1 →
      (l1 ++ x :: l2).findIdx? (fun y => y == x) i = some (l1.length + i) := by
  intro l1
  induction l1 with
  | nil =>
    intro l2 i _
    rw [List.nil_append, List.findIdx?_cons, if_pos (by simp)]
    simp
  | cons a l ih =>
    intro l2 i hx
    have ha : a ≠ x := fun h => hx (by simp [h])
    rw [List.cons_append, List.findIdx?_cons, if_neg (by simp [ha])]
    rw [ih l2 (i + 1) (fun h => hx (List.mem_cons_of_mem a h))]
    congr 1
    rw [List.length_cons]
    omega

/-- C2 counterexample.  A four-leaf committer tree whose node secrets are not
hash-chain consistent: node 5 (on the joiner's direct path, joiner leaf 2)
holds `fresh 0`, while the root (node 3) holds `fresh 1`.  `generateWelcome`
sends only the first direct-path secret (`fresh 0` at node 5); the joiner
re-derives the root as `derived (fresh 0)`, which differs from the
committer's root secret `fresh 1`. -/
theorem c2_counterexample :
    ((generateWelcome ⟨[none, none, none, some ⟨none, none, some (.fresh 1)⟩, none,
          some ⟨some 55, none, some (.fresh 0)⟩, none], 4, 0⟩ 2 77 0).bind
        (fun w => fromWelcome w ⟨77, 77⟩)).map getRootSecret =
      some (some (.derived (.fresh 0))) ∧
    getRootSecret ⟨[none, none, none, some ⟨none, none, some (.fresh 1)⟩, none,
        some ⟨some 55, none, some (.fresh 0)⟩, none], 4, 0⟩ = some (.fresh 1) ∧
    directPath 2 4 = some [5, 3] ∧
    ((getNode [none, none, none, some ⟨none, none, some (.fresh 1)⟩, none,
        some ⟨some 55, none, some (.fresh 0)⟩, none] 5).bind (·.secret)).isSome = true ∧
    SecData.derived (.fresh 0) ≠ SecData.fresh 1 :=
  ⟨rfl, rfl, rfl, rfl, by decide⟩

/-- `fromWelcome` on a welcome whose single path entry is encapsulated to the
joiner's honest key pair: the entry decrypts, the chain is derived up the
direct path, and the root secret is whatever the final chain write put
there. -/
theorem fromWelcome_found (tpks : List (Option Nat)) (n jp pkJ epoch x idx : Nat)
    (npk : Option Nat) (s rs : SecData) (Q : Prop)
    (h1 : 1 ≤ n)
    (hfind : ((List.range' 1 (log2Src (2 * n - 1))).map (anc jp)).findIdx?
      (fun y => y == x) 0 = some idx)
    (hrs : ∀ nodes1,
      (getNode (deriveRest (modifyNode nodes1 x (fun nd => { nd with secret := some s })) s
        (((List.range' 1 (log2Src (2 * n - 1))).map (anc jp)).drop (idx + 1)))
        (2 ^ log2Src (2 * n - 1) - 1)).bind (·.secret) = some rs)
    (hdp : directPath jp n = some ((List.range' 1 (log2Src (2 * n - 1))).map (anc jp)))
    (hQ : Q) :
    ∃ w stJ,
      some (⟨tpks, n, jp, [⟨x, npk, some (pkJ, s)⟩], epoch⟩ : TreeKemWelcome) = some w ∧
      fromWelcome w ⟨pkJ, pkJ⟩ = some stJ ∧
      getRootSecret stJ = some rs ∧ Q := by
  refine ⟨⟨tpks, n, jp, [⟨x, npk, some (pkJ, s)⟩], epoch⟩, ?_⟩
  unfold fromWelcome
  dsimp only
  rw [show decryptFromNode (pkJ, s) pkJ = some s from by
    unfold decryptFromNode
    rw [if_pos rfl]]
  dsimp only
  rw [hdp]
  dsimp only
  rw [hfind]
  dsimp only
  refine ⟨_, rfl, rfl, ?_, hQ⟩
  unfold getRootSecret
  dsimp only
  rw [root_eq n h1]
  dsimp only
  rw [hrs]

/-- C2 (amended): the round trip agrees with the committer's root secret
exactly when the committer's stored secrets are hash-chain consistent along
the joiner's direct path: if the first direct-path node holding a secret is
the `idx`-th (secret `s`), and the committer's root secret `rs` equals
`derive` applied `K - (idx+1)` times to `s` (`K` the path length), then
`fromWelcome (generateWelcome ...)` with the joiner's honest key pair yields
a state whose `getRootSecret` equals the committer's. -/
theorem c2_amended (st : TreeKemState) (jp pkJ epoch idx : Nat) (nd : TreeNode)
    (s rs : SecData)
    (h1 : 1 ≤ st.numLeaves) (h2 : jp < st.numLeaves)
    (hidx : idx < log2Src (2 * st.numLeaves - 1))
    (hbelow : ∀ k, k < idx → (getNode st.nodes (anc jp (k + 1))).bind (·.secret) = none)
    (hfound : getNode st.nodes (anc jp (idx + 1)) = some nd)
    (hsec : nd.secret = some s)
    (hchain : rs = deriveNodeSecret^[log2Src (2 * st.numLeaves - 1) - (idx + 1)] s)
    (hroot : (getNode st.nodes (2 ^ log2Src (2 * st.numLeaves - 1) - 1)).bind (·.secret) =
      some rs) :
    ∃ w stJ, generateWelcome st jp pkJ epoch = some w ∧
      fromWelcome w ⟨pkJ, pkJ⟩ = some stJ ∧
      getRootSecret stJ = some rs ∧ getRootSecret st = some rs := by
  have hdp := directPath_eq st.numLeaves jp h1 h2
  have hjpK : jp < 2 ^ log2Src (2 * st.numLeaves - 1) :=
    Nat.lt_of_lt_of_le h2 (n_le_pow_log st.numLeaves h1)
  have hsplit : (List.range' 1 (log2Src (2 * st.numLeaves - 1))).map (anc jp) =
      (List.range' 1 idx).map (anc jp) ++
        anc jp (idx + 1) ::
          (List.range' (idx + 2) (log2Src (2 * st.numLeaves - 1) - (idx + 1))).map (anc jp) := by
    have e1 : List.range' 1 (log2Src (2 * st.numLeaves - 1)) =
        List.range' 1 idx ++ List.range' (1 + idx) (log2Src (2 * st.numLeaves - 1) - idx) := by
      rw [← range'_split]
      congr 1
      omega
    have e2 : List.range' (1 + idx) (log2Src (2 * st.numLeaves - 1) - idx) =
        (idx + 1) :: List.range' (idx + 2) (log2Src (2 * st.numLeaves - 1) - (idx + 1)) := by
      rw [show (1 : Nat) + idx = idx + 1 from by omega,
        show log2Src (2 * st.numLeaves - 1) - idx =
          (log2Src (2 * st.numLeaves - 1) - (idx + 1)) + 1 from by omega,
        List.range'_succ]
    rw [e1, e2, List.map_append, List.map_cons]
  have hskip : ∀ y ∈ (List.range' 1 idx).map (anc jp),
      (getNode st.nodes y).bind (·.secret) = none := by
    intro y hy
    obtain ⟨k, hk, rfl⟩ := List.mem_map.mp hy
    have hk2 := List.mem_range'_1.mp hk
    rw [show k = (k - 1) + 1 from by omega]
    exact hbelow (k - 1) (by omega)
  have hfse : firstSecretEntry st.nodes pkJ
      ((List.range' 1 (log2Src (2 * st.numLeaves - 1))).map (anc jp)) =
      [⟨anc jp (idx + 1), nd.publicKey, some (pkJ, s)⟩] := by
    rw [hsplit, firstSecretEntry_append st.nodes pkJ _ _ hskip]
    exact firstSecretEntry_found st.nodes pkJ _ _ nd s hfound hsec
  have hnotmem : anc jp (idx + 1) ∉ (List.range' 1 idx).map (anc jp) := by
    intro hm
    obtain ⟨k, hk, he⟩ := List.mem_map.mp hm
    have hk2 := List.mem_range'_1.mp hk
    have h3 : nodeLevel (anc jp k) = nodeLevel (anc jp (idx + 1)) := by rw [he]
    rw [nodeLevel_anc, nodeLevel_anc] at h3
    omega
  have hfind : ((List.range' 1 (log2Src (2 * st.numLeaves - 1))).map (anc jp)).findIdx?
      (fun y => y == anc jp (idx + 1)) 0 = some idx := by
    rw [hsplit]
    have hf := findIdx_first (anc jp (idx + 1)) ((List.range' 1 idx).map (anc jp))
      ((List.range' (idx + 2) (log2Src (2 * st.numLeaves - 1) - (idx + 1))).map (anc jp))
      0 hnotmem
    simpa using hf
  have hdrop : ((List.range' 1 (log2Src (2 * st.numLeaves - 1))).map (anc jp)).drop (idx + 1) =
      (List.range' (idx + 2) (log2Src (2 * st.numLeaves - 1) - (idx + 1))).map (anc jp) := by
    have hsplit2 : (List.range' 1 (log2Src (2 * st.numLeaves - 1))).map (anc jp) =
        ((List.range' 1 idx).map (anc jp) ++ [anc jp (idx + 1)]) ++
          (List.range' (idx + 2) (log2Src (2 * st.numLeaves - 1) - (idx + 1))).map (anc jp) := by
      rw [hsplit]
      simp
    have hlen : ((List.range' 1 idx).map (anc jp) ++ [anc jp (idx + 1)]).length = idx + 1 := by
      simp
    rw [hsplit2, drop_length_append _ _ _ hlen]
  have hrs : ∀ nodes1,
      (getNode (deriveRest (modifyNode nodes1 (anc jp (idx + 1))
          (fun nd => { nd with secret := some s })) s
        (((List.range' 1 (log2Src (2 * st.numLeaves - 1))).map (anc jp)).drop (idx + 1)))
        (2 ^ log2Src (2 * st.numLeaves - 1) - 1)).bind (·.secret) = some rs := by
    intro nodes1
    rw [hdrop]
    rcases Nat.lt_or_ge (idx + 1) (log2Src (2 * st.numLeaves - 1)) with hlt | hge
    · have hlast : ((List.range' (idx + 2) (log2Src (2 * st.numLeaves - 1) - (idx + 1))).map
          (anc jp)).getLast? = some (anc jp (log2Src (2 * st.numLeaves - 1))) := by
        rw [show log2Src (2 * st.numLeaves - 1) - (idx + 1) =
            (log2Src (2 * st.numLeaves - 1) - (idx + 2)) + 1 from by omega]
        rw [List.range'_concat]
        rw [show idx + 2 + 1 * (log2Src (2 * st.numLeaves - 1) - (idx + 2)) =
            log2Src (2 * st.numLeaves - 1) from by omega]
        rw [List.map_append, List.map_cons, List.map_nil]
        exact List.getLast?_concat _
      have h := deriveRest_last_secret _
        (modifyNode nodes1 (anc jp (idx + 1)) (fun nd => { nd with secret := some s })) s
        (anc jp (log2Src (2 * st.numLeaves - 1))) hlast
      rw [List.length_map, List.length_range'] at h
      rw [anc_top jp _ hjpK] at h
      rw [h, hchain]
    · have hK0 : log2Src (2 * st.numLeaves - 1) - (idx + 1) = 0 := by omega
      have hanc : anc jp (idx + 1) = 2 ^ log2Src (2 * st.numLeaves - 1) - 1 := by
        rw [show idx + 1 = log2Src (2 * st.numLeaves - 1) from by omega]
        exact anc_top jp _ hjpK
      rw [hK0]
      rw [show List.range' (idx + 2) 0 = ([] : List Nat) from rfl, List.map_nil]
      rw [show ∀ nodes2, deriveRest nodes2 s [] = nodes2 from fun _ => rfl]
      rw [← hanc]
      rw [getNode_modifyNode_self]
      rw [hchain, hK0]
      rfl
  have hrootSt : getRootSecret st = some rs := by
    unfold getRootSecret
    rw [root_eq st.numLeaves h1]
    dsimp only
    rw [hroot]
  unfold generateWelcome
  rw [hdp]
  dsimp only
  rw [hfse]
  exact fromWelcome_found _ st.numLeaves jp pkJ epoch (anc jp (idx + 1)) idx
    nd.publicKey s rs _ h1 hfind hrs hdp hrootSt

theorem c2_amended_witness :
    ∃ w stJ,
      generateWelcome ⟨[none, none, none, some ⟨none, none, some (.derived (.fresh 0))⟩, none,
          some ⟨some 55, none, some (.fresh 0)⟩, none], 4, 0⟩ 2 77 0 = some w ∧
      fromWelcome w ⟨77, 77⟩ = some stJ ∧
      getRootSecret stJ = some (.derived (.fresh 0)) ∧
      getRootSecret ⟨[none, none, none, some ⟨none, none, some (.derived (.fresh 0))⟩, none,
          some ⟨some 55, none, some (.fresh 0)⟩, none], 4, 0⟩ =
        some (.derived (.fresh 0)) :=
  c2_amended ⟨[none, none, none, some ⟨none, none, some (.derived (.fresh 0))⟩, none,
      some ⟨some 55, none, some (.fresh 0)⟩, none], 4, 0⟩ 2 77 0 0
    ⟨some 55, none, some (.fresh 0)⟩ (.fresh 0) (.derived (.fresh 0))
    (by decide) (by decide) (by decide)
    (fun k hk => absurd hk (Nat.not_lt_zero k))
    rfl rfl (by decide) (by decide)

/-! ## C6, C9: the TOFU store -/

/-- Looking up the key just written returns the written record. -/
theorem tofuLookup_set (store : TofuStore) (roomId pk : String)
    (rec : StoredPeerKey) :
    tofuLookup (tofuSet store roomId pk rec) roomId pk = some rec := by
  induction store with
  | nil => simp [tofuSet, tofuLookup]
  | cons e rest ih =>
    unfold tofuSet
    by_cases he : (e.1 == (roomId, pk)) = true
    · rw [if_pos he]
      unfold tofuLookup
      have he2 : (fun x => x.1 == (roomId, pk))
          ((e.1, rec) : (String × String) × StoredPeerKey) = true := he
      rw [@List.find?_cons_of_pos _ (fun x => x.1 == (roomId, pk)) (e.1, rec) rest he2]
    · rw [if_neg he]
      unfold tofuLookup at ih ⊢
      rw [List.find?_cons_of_neg _ (by simpa using he)]
      exact ih

/-- A record reported expired has (stored) status `verified`. -/
theorem expired_verified (r : StoredPeerKey) (now : Nat)
    (h : isVerificationExpired r now = true) : r.status = .verified := by
  unfold isVerificationExpired at h
  split at h
  · exact Bool.noConfusion h
  · rename_i hcond
    simpa using hcond

/-- With the stored status `verified`, the expiry test is exactly: `verifiedAt`
falsy, or more than 30 days old. -/
theorem expired_iff (rec : StoredPeerKey) (peer : String) (now : Nat)
    (hver : rec.status = .verified) :
    isVerificationExpired { rec with peerId := peer, lastSeen := now } now = true ↔
      (verifiedAtFalsy rec.verifiedAt = true ∨
        (now : Int) - ((rec.verifiedAt.getD 0 : Nat) : Int) >
          (VERIFICATION_MAX_AGE_MS : Int)) := by
  unfold isVerificationExpired
  rw [if_neg (by simp [hver])]
  by_cases hf : verifiedAtFalsy rec.verifiedAt = true
  · simp only [hf]
    simp
  · simp only [hf]
    rw [if_neg (by simp [hf])]
    simp

/-- C6 counterexample.  A room-key record bound to peer "A" with status
`unverified`; peer "B" then announces the same public key.  The claim says
`checkPeerKey` reports `key_changed` and rejects "B" without refreshing the
record; instead the code returns the stored status `unverified` and rewrites
the record, rebinding it to "B" and refreshing `lastSeen`. -/
theorem c6_counterexample :
    (checkPeerKey [(("r", "k"), ⟨"A", "r", "k", .unverified, 5, 5, none⟩)]
        "r" "B" "k" 9).1.status = .unverified ∧
    (checkPeerKey [(("r", "k"), ⟨"A", "r", "k", .unverified, 5, 5, none⟩)]
        "r" "B" "k" 9).2 =
      [(("r", "k"), ⟨"B", "r", "k", .unverified, 5, 9, none⟩)] :=
  ⟨rfl, rfl⟩

/-- C6 (amended): `checkPeerKey` never compares the announced peer identity
with the stored one.  If a record exists for `(roomId, publicKeyBase64)`, the
result's status is `key_changed` exactly when the stored record's status is
`key_changed`, and the saved record is rebound to the announcing `peerId`
with `lastSeen := now`.  If no record exists, the store is returned unchanged
with status `unverified`, and the subsequent `storePeerKey` inserts with
status `unverified`. -/
theorem c6_amended (store : TofuStore) (room peer pk : String) (now : Nat) :
    (∀ rec, tofuLookup store room pk = some rec →
      ((checkPeerKey store room peer pk now).1.status = .keyChanged ↔
        rec.status = .keyChanged) ∧
      ∃ rec2, tofuLookup (checkPeerKey store room peer pk now).2 room pk =
          some rec2 ∧ rec2.peerId = peer ∧ rec2.lastSeen = now) ∧
    (tofuLookup store room pk = none →
      checkPeerKey store room peer pk now = (⟨.unverified, none, true⟩, store) ∧
      (storePeerKey store room peer pk now).1.status = .unverified) := by
  constructor
  · intro rec hrec
    unfold checkPeerKey
    rw [hrec]
    dsimp only
    split
    · rename_i hexp
      refine ⟨?_, ?_⟩
      · have hst : rec.status = .verified := expired_verified _ _ hexp
        constructor
        · intro hx
          exact absurd
            (show VerificationStatus.unverified = VerificationStatus.keyChanged from hx)
            (by decide)
        · intro hx
          rw [hst] at hx
          exact absurd hx (by decide)
      · exact ⟨_, tofuLookup_set store room pk _, rfl, rfl⟩
    · refine ⟨Iff.rfl, ?_⟩
      exact ⟨_, tofuLookup_set store room pk _, rfl, rfl⟩
  · intro hnone
    unfold checkPeerKey storePeerKey
    rw [hnone]
    exact ⟨rfl, rfl⟩

theorem c6_amended_witness :
    (∀ rec,
      tofuLookup [(("r", "k"), ⟨"A", "r", "k", .keyChanged, 5, 5, none⟩)] "r" "k" =
        some rec →
      ((checkPeerKey [(("r", "k"), ⟨"A", "r", "k", .keyChanged, 5, 5, none⟩)]
          "r" "B" "k" 9).1.status = .keyChanged ↔ rec.status = .keyChanged) ∧
      ∃ rec2,
        tofuLookup (checkPeerKey [(("r", "k"), ⟨"A", "r", "k", .keyChanged, 5, 5, none⟩)]
          "r" "B" "k" 9).2 "r" "k" = some rec2 ∧
        rec2.peerId = "B" ∧ rec2.lastSeen = 9) ∧
    (tofuLookup [(("r", "k"), ⟨"A", "r", "k", .keyChanged, 5, 5, none⟩)] "r" "k" = none →
      checkPeerKey [(("r", "k"), ⟨"A", "r", "k", .keyChanged, 5, 5, none⟩)]
        "r" "B" "k" 9 =
        (⟨.unverified, none, true⟩, [(("r", "k"), ⟨"A", "r", "k", .keyChanged, 5, 5, none⟩)]) ∧
      (storePeerKey [(("r", "k"), ⟨"A", "r", "k", .keyChanged, 5, 5, none⟩)]
          "r" "B" "k" 9).1.status = .unverified) :=
  c6_amended [(("r", "k"), ⟨"A", "r", "k", .keyChanged, 5, 5, none⟩)] "r" "B" "k" 9

/-- C9 counterexample.  A record verified at time 0 (`verifiedAt = some 0`),
checked at `now = 1000` — well within 30 days — is nevertheless demoted to
`unverified`, because the JS truthiness test `!record.verifiedAt` treats the
number 0 as absent. -/
theorem c9_counterexample :
    (checkPeerKey [(("r", "k"), ⟨"A", "r", "k", .verified, 0, 0, some 0⟩)]
        "r" "A" "k" 1000).1.status = .unverified ∧
    (1000 : Int) - ((0 : Nat) : Int) ≤ (VERIFICATION_MAX_AGE_MS : Int) :=
  ⟨rfl, by decide⟩

/-- C9 (amended): for a stored record with status `verified`, `checkPeerKey`
demotes it to `unverified` (clearing `verifiedAt`) exactly when `verifiedAt`
is JS-falsy (absent or the number 0) or lies more than 30 days before `now`;
otherwise the record keeps status `verified` and its `verifiedAt`. -/
theorem c9_amended (store : TofuStore) (room peer pk : String) (now : Nat)
    (rec : StoredPeerKey) (hrec : tofuLookup store room pk = some rec)
    (hver : rec.status = .verified) :
    ((verifiedAtFalsy rec.verifiedAt = true ∨
        (now : Int) - ((rec.verifiedAt.getD 0 : Nat) : Int) >
          (VERIFICATION_MAX_AGE_MS : Int)) →
      (checkPeerKey store room peer pk now).1.status = .unverified ∧
      ∃ rec2, tofuLookup (checkPeerKey store room peer pk now).2 room pk =
          some rec2 ∧ rec2.status = .unverified ∧ rec2.verifiedAt = none) ∧
    (¬ (verifiedAtFalsy rec.verifiedAt = true ∨
        (now : Int) - ((rec.verifiedAt.getD 0 : Nat) : Int) >
          (VERIFICATION_MAX_AGE_MS : Int)) →
      (checkPeerKey store room peer pk now).1.status = .verified ∧
      ∃ rec2, tofuLookup (checkPeerKey store room peer pk now).2 room pk =
          some rec2 ∧ rec2.status = .verified ∧ rec2.verifiedAt = rec.verifiedAt) := by
  have hiff := expired_iff rec peer now hver
  constructor
  · intro hcond
    unfold checkPeerKey
    rw [hrec]
    dsimp only
    rw [if_pos (hiff.mpr hcond)]
    exact ⟨rfl, _, tofuLookup_set store room pk _, rfl, rfl⟩
  · intro hcond
    unfold checkPeerKey
    rw [hrec]
    dsimp only
    rw [if_neg (fun hx => hcond (hiff.mp hx))]
    refine ⟨hver, _, tofuLookup_set store room pk _, hver, rfl⟩

theorem c9_amended_witness :
    ((verifiedAtFalsy (some 50) = true ∨
        ((2592000051 : Nat) : Int) - (((some 50 : Option Nat).getD 0 : Nat) : Int) >
          (VERIFICATION_MAX_AGE_MS : Int)) ∧
      (checkPeerKey [(("r", "k"), ⟨"A", "r", "k", .verified, 0, 0, some 50⟩)]
          "r" "A" "k" 2592000051).1.status = .unverified) ∧
    (¬ (verifiedAtFalsy (some 50) = true ∨
        ((60 : Nat) : Int) - (((some 50 : Option Nat).getD 0 : Nat) : Int) >
          (VERIFICATION_MAX_AGE_MS : Int)) ∧
      (checkPeerKey [(("r", "k"), ⟨"A", "r", "k", .verified, 0, 0, some 50⟩)]
          "r" "A" "k" 60).1.status = .verified) :=
  ⟨⟨by decide,
    ((c9_amended [(("r", "k"), ⟨"A", "r", "k", .verified, 0, 0, some 50⟩)]
        "r" "A" "k" 2592000051 ⟨"A", "r", "k", .verified, 0, 0, some 50⟩ rfl rfl).1
      (by decide)).1⟩,
   ⟨by decide,
    ((c9_amended [(("r", "k"), ⟨"A", "r", "k", .verified, 0, 0, some 50⟩)]
        "r" "A" "k" 60 ⟨"A", "r", "k", .verified, 0, 0, some 50⟩ rfl rfl).2
      (by decide)).1⟩⟩

end Parrhesia
